import Mathlib

/-!
Verification development for the `healer` fuzz-program generator
(`src/core/src/gen.rs`).

The Rust code is shallowly embedded: every generator function becomes a Lean
function over explicit state.  Randomness (`thread_rng`) is replaced by an
explicit `Oracle`, a stream of natural numbers; every probabilistic branch of
the source consumes one draw.  Rust panics (assertion failures, `unwrap` on
empty collections, `gen_range` on an empty interval, index overflow) become
`Except GenErr` errors, with one error constructor per distinct failure site.
Recursion through the open type grammar is bounded by an explicit fuel
parameter; exhausted fuel is the distinguished error `GenErr.fuelOut`.
-/

namespace Healer

/-- Explicit random source replacing `thread_rng`: a stream of naturals
(an exhausted list keeps yielding 0, so the oracle is total). -/
abbrev Oracle := List Nat

/-- Draw one natural from the oracle. -/
def Oracle.next : Oracle → Nat × Oracle
  | [] => (0, [])
  | n :: o => (n, o)

/-- Draw one boolean (models `rng.gen::<bool>()` and the events
`rng.gen::<f64>() > c`: each such comparison is one independent draw). -/
def Oracle.nextBool (o : Oracle) : Bool × Oracle :=
  let (n, o) := o.next
  (n % 2 == 1, o)

/-- The distinct abort sites of `gen.rs`, one constructor each. -/
inductive GenErr where
  /-- fuel exhausted (models possible non-termination of unbounded recursion) -/
  | fuelOut
  /-- Models `assert!(!rs.is_empty())` in `gen` -/
  | emptyRTables
  /-- Models `assert!(rs.len() != 0)` in `choose_seq` -/
  | emptyTable
  /-- Models `assert!(*depth == 1, ..)` in `gen_value` -/
  | ptrDepth
  /-- Models `assert!(!flags.is_empty())` in `gen_flag` -/
  | emptyFlags
  /-- Models `assert!(!fields.is_empty())` in `gen_union` -/
  | emptyUnion
  /-- Models `rng.gen_range(lo, hi)` with `lo >= hi` -/
  | rangeEmpty
  /-- Models `.choose(&mut rng).unwrap()` on an empty collection -/
  | chooseEmpty
  /-- Models `assert!(!res.is_empty())` / the following `unwrap` in `gen_res` -/
  | resEmpty
  /-- out-of-bounds indexing (`g.fns[i]`, `fields[i]`) -/
  | badIndex
  deriving DecidableEq

/-- Models `rng.gen_range(lo, hi)` on `usize`: uniform over `[lo, hi)`;
aborts when the interval is empty. -/
def genRange (lo hi : Nat) (o : Oracle) : Except GenErr (Nat × Oracle) :=
  if lo < hi then
    let (n, o) := o.next
    .ok (lo + n % (hi - lo), o)
  else .error .rangeEmpty

/-- Models `rng.gen_range(lo, hi)` on a signed integer type. -/
def genRangeInt (lo hi : Int) (o : Oracle) : Except GenErr (Int × Oracle) :=
  if lo < hi then
    let (n, o) := o.next
    .ok (lo + (n : Int) % (hi - lo), o)
  else .error .rangeEmpty

/-- Models `xs.choose(&mut rng).unwrap()`: uniform element of a list;
the `unwrap` aborts on an empty list. -/
def chooseL : List α → Oracle → Except GenErr (α × Oracle)
  | [], _ => .error .chooseEmpty
  | x :: xs, o =>
    let (n, o) := o.next
    .ok ((x :: xs).get ⟨n % (xs.length + 1), Nat.mod_lt _ (Nat.succ_pos _)⟩, o)

/-- Models `rng.gen::<uN>()`: uniform unsigned value of bit width `w`. -/
def sampleU (w : Nat) (o : Oracle) : Nat × Oracle :=
  let (n, o) := o.next
  (n % 2 ^ w, o)

/-- Models `rng.gen::<iN>()`: uniform signed value of bit width `w`
(two's-complement reading of a `w`-bit pattern). -/
def sampleI (w : Nat) (o : Oracle) : Int × Oracle :=
  let (n, o) := o.next
  let m := n % 2 ^ w
  (if m < 2 ^ (w - 1) then (m : Int) else (m : Int) - 2 ^ w, o)

/-- Models `isize as usize` (two's-complement reinterpretation on 64 bits). -/
def isizeToUsize (i : Int) : Nat := (i % 2 ^ 64).toNat

/-- Opaque key into the type catalog (`fots::types::TypeId`). -/
abbrev TypeId := Nat

/-- Group identifier (`fots::types::GroupId`). -/
abbrev GroupId := Nat

/-- Models `crate::prog::ArgIndex`: (call position, argument slot). -/
abbrev ArgIndex := Nat × Nat

/-- Models `fots::types::StrType`. -/
inductive StrType where
  | str
  | cstr
  | fileName
  deriving DecidableEq

/-- Models `fots::types::PtrDir`. -/
inductive PtrDir where
  | In
  | Out
  | InOut
  deriving DecidableEq

/-- Models `fots::types::NumLimit`: enumerated values, half-open range, or none.
`range s e` is Rust's `Range { start := s, end := e }`. -/
inductive NumLimit (α : Type) where
  | vals : List α → NumLimit α
  | range : α → α → NumLimit α
  | none : NumLimit α
  deriving DecidableEq

/-- Models `fots::types::NumInfo`: width/signedness with its limit.  The payloads of
the narrow widths are carried as `Int`/`Nat` (the `as i64`/`as u64` casts in
the source are value-preserving on these payloads). -/
inductive NumInfo where
  | i8 : NumLimit Int → NumInfo
  | i16 : NumLimit Int → NumInfo
  | i32 : NumLimit Int → NumInfo
  | i64 : NumLimit Int → NumInfo
  | u8 : NumLimit Nat → NumInfo
  | u16 : NumLimit Nat → NumInfo
  | u32 : NumLimit Nat → NumInfo
  | u64 : NumLimit Nat → NumInfo
  | usize : NumLimit Nat → NumInfo
  | isize : NumLimit Int → NumInfo
  deriving DecidableEq

/-- Signed source widths normalize to `NumValue.signed`. -/
def NumInfo.signedQ : NumInfo → Bool
  | .i8 _ | .i16 _ | .i32 _ | .i64 _ | .isize _ => true
  | .u8 _ | .u16 _ | .u32 _ | .u64 _ | .usize _ => false

/-- Models `fots::types::Flag`: only the numeric value is consumed by `gen_flag`. -/
structure Flag where
  val : Int
  deriving DecidableEq

/-- Models `fots::types::Field`: only the field's type id is consumed here. -/
structure Field where
  tid : TypeId
  deriving DecidableEq

/-- Models `fots::types::TypeInfo`, restricted to the payload components `gen.rs`
reads.  `ptr dir tid depth`; `slice tid l h` with `isize` bounds;
`str strType vals`; `len` keeps only enough to dispatch. -/
inductive TypeInfo where
  | num : NumInfo → TypeInfo
  | ptr : PtrDir → TypeId → Nat → TypeInfo
  | slice : TypeId → Int → Int → TypeInfo
  | str : StrType → Option (List String) → TypeInfo
  | struct : List Field → TypeInfo
  | union : List Field → TypeInfo
  | flag : List Flag → TypeInfo
  | alias : TypeId → TypeInfo
  | res : TypeId → TypeInfo
  | len : TypeId → TypeInfo

/-- Models `crate::value::NumValue`: the two canonical numeric forms. -/
inductive NumValue where
  | signed : Int → NumValue
  | unsigned : Nat → NumValue
  deriving DecidableEq

/-- Models `crate::value::Value` (src/core/src/value.rs is not among the provided
sources; the constructors are exactly those `gen.rs` uses, matching spec §3:
Number, String, Group, Choice, Reference, Absent). -/
inductive Value where
  | num : NumValue → Value
  | str : String → Value
  | group : List Value → Value
  | opt : Nat → Value → Value
  | ref : ArgIndex → Value
  | none : Value

/-- Models `crate::prog::Arg`. -/
structure Arg where
  tid : TypeId
  val : Value

/-- Models `crate::prog::Call`. -/
structure Call where
  id : Nat
  args : List Arg
  ret : Option Arg

/-- Models `Call::new(fid)`. -/
def Call.new (fid : Nat) : Call := ⟨fid, [], Option.none⟩

/-- Models `crate::prog::Prog`. -/
structure Prog where
  gid : GroupId
  calls : List Call

/-- Models `Prog::new(gid)`. -/
def Prog.new (gid : GroupId) : Prog := ⟨gid, []⟩

/-- Models `Prog::len`. -/
def Prog.len (p : Prog) : Nat := p.calls.length

/-- Models `fots::types::FnInfo`, restricted to the components `gen.rs` reads:
identifier, ordered parameter type ids, optional return type id. -/
structure FnInfo where
  id : Nat
  params : List Field
  r_tid : Option TypeId

/-- Models `FnInfo::has_params`. -/
def FnInfo.has_params (f : FnInfo) : Bool := !f.params.isEmpty

/-- A group's ordered operation list (`t.groups[gid].fns`). -/
structure Group where
  fns : List FnInfo

/-- Models `crate::target::Target`, at the interface `gen.rs` consumes:
`type_of`, `is_res`, and group lookup (modelled as total functions). -/
structure Target where
  groups : GroupId → Group
  type_of : TypeId → TypeInfo
  is_res : TypeId → Bool

/-- Models `crate::analyze::Relation`: the relation-table cell. -/
inductive Relation where
  | none
  | some
  | unknown
  deriving DecidableEq

/-- Models `crate::analyze::RTable`: a square matrix over operation indices,
`n = rs.len()`, `rel i j` the cell at row `i`, column `j`. -/
structure RTable where
  n : Nat
  rel : Nat → Nat → Relation

/-- Models `RTable::len`. -/
def RTable.len (rs : RTable) : Nat := rs.n

/-- Models `gen::Config`. -/
structure Config where
  prog_max_len : Nat
  str_min_len : Nat
  str_max_len : Nat
  path_max_depth : Nat

/-- Models `gen::State`.  The two hash maps become functions: `res` distinguishes an
absent key (`Option.none`) from a present empty list, exactly as
`HashMap::get` does; `strs` is total with default `[]`, matching the map that
`State::new` seeds with an empty vector at the only key ever accessed. -/
structure State where
  res : TypeId → Option (List ArgIndex)
  strs : StrType → List String
  prog : Prog
  conf : Config
  argi : Nat

/-- Models `State::new`. -/
def State.new (prog : Prog) (conf : Config) : State :=
  ⟨fun _ => Option.none, fun _ => [], prog, conf, 0⟩

/-- Models `State::record_res`: append the current (call, argument) position to the
producer list of `tid`, creating the list if absent.  `cid` is
`self.prog.len() - 1` (every call site has a nonempty program). -/
def State.record_res (s : State) (tid : TypeId) : State :=
  let cid := s.prog.len - 1
  let idx := (s.res tid).getD []
  { s with res := fun t => if t = tid then Option.some (idx ++ [(cid, s.argi)]) else s.res t }

/-- Models `State::record_str` (defined in the source but never invoked there). -/
def State.record_str (s : State) (t : StrType) (val : String) : State :=
  { s with strs := fun u => if u = t then s.strs t ++ [val] else s.strs u }

/-- Models `State::add_call`: append a call to the program. -/
def State.add_call (s : State) (call : Call) : State :=
  { s with prog := { s.prog with calls := s.prog.calls ++ [call] } }

/-- Models `gen_slice_len`.  Match-arm order follows the source exactly: the pair
`(-1, h)` with `h ≥ 0` falls into the third arm, where `-1 as usize` is the
two's-complement giant `2^64 - 1`. -/
def gen_slice_len (l h : Int) (o : Oracle) : Except GenErr (Nat × Oracle) :=
  if l = -1 ∧ h = -1 then genRange 0 8 o
  else if h = -1 then genRange 0 (isizeToUsize l) o
  else genRange (isizeToUsize l) (isizeToUsize h) o

/-- One signed arm of `gen_num` (identical across widths up to `w`). -/
def genNumSigned (w : Nat) (l : NumLimit Int) (o : Oracle) :
    Except GenErr (Value × Oracle) :=
  match l with
  | .vals vals =>
    match chooseL vals o with
    | .ok (v, o) => .ok (Value.num (NumValue.signed v), o)
    | .error e => .error e
  | .range s e =>
    match genRangeInt s e o with
    | .ok (v, o) => .ok (Value.num (NumValue.signed v), o)
    | .error e => .error e
  | .none =>
    let (v, o) := sampleI w o
    .ok (Value.num (NumValue.signed v), o)

/-- One unsigned arm of `gen_num`. -/
def genNumUnsigned (w : Nat) (l : NumLimit Nat) (o : Oracle) :
    Except GenErr (Value × Oracle) :=
  match l with
  | .vals vals =>
    match chooseL vals o with
    | .ok (v, o) => .ok (Value.num (NumValue.unsigned v), o)
    | .error e => .error e
  | .range s e =>
    match genRange s e o with
    | .ok (v, o) => .ok (Value.num (NumValue.unsigned v), o)
    | .error e => .error e
  | .none =>
    let (v, o) := sampleU w o
    .ok (Value.num (NumValue.unsigned v), o)

/-- Models `gen_num`: ten width/signedness arms, each dispatching on the limit. -/
def gen_num (type_info : NumInfo) (o : Oracle) : Except GenErr (Value × Oracle) :=
  match type_info with
  | .i8 l => genNumSigned 8 l o
  | .i16 l => genNumSigned 16 l o
  | .i32 l => genNumSigned 32 l o
  | .i64 l => genNumSigned 64 l o
  | .u8 l => genNumUnsigned 8 l o
  | .u16 l => genNumUnsigned 16 l o
  | .u32 l => genNumUnsigned 32 l o
  | .u64 l => genNumUnsigned 64 l o
  | .usize l => genNumUnsigned 64 l o
  | .isize l => genNumSigned 64 l o

/-- The `loop` of `gen_flag`: while a coin continues, AND another randomly
chosen flag value into the accumulator. -/
def flagLoop (flags : List Flag) (val : Int) (o : Oracle) (fuel : Nat) :
    Except GenErr (Value × Oracle) :=
  match fuel with
  | 0 => .error .fuelOut
  | fuel + 1 =>
    let (b, o) := o.nextBool
    if b then
      match chooseL flags o with
      | .ok (flag, o) => flagLoop flags (Int.land val flag.val) o fuel
      | .error e => .error e
    else .ok (Value.num (NumValue.signed val), o)

/-- Models `gen_flag`: abort on empty flag list; with probability 0.2 emit a raw
random `i32`; otherwise seed from one flag and run `flagLoop`. -/
def gen_flag (flags : List Flag) (o : Oracle) (fuel : Nat) :
    Except GenErr (Value × Oracle) :=
  if flags.isEmpty then .error .emptyFlags
  else
    let (braw, o) := o.nextBool
    if braw then
      let (v, o) := sampleI 32 o
      .ok (Value.num (NumValue.signed v), o)
    else
      match chooseL flags o with
      | .ok (flag, o) => flagLoop flags flag.val o fuel
      | .error e => .error e

/-- The 62-character alphabet of `rand::distributions::Alphanumeric`. -/
def alnumChars : List Char :=
  "ABCDEFGHIJKLMNOPQRSTUVWXYZabcdefghijklmnopqrstuvwxyz0123456789".toList

/-- One draw from `Alphanumeric`. -/
def sampleAlnum (o : Oracle) : Char × Oracle :=
  let (n, o) := o.next
  (alnumChars.get ⟨n % 62, Nat.mod_lt _ (Nat.succ_pos _)⟩, o)

/-- One draw from `Standard` at type `char`. -/
def sampleStdChar (o : Oracle) : Char × Oracle :=
  let (n, o) := o.next
  (Char.ofNat n, o)

/-- Models `rng.sample_iter(dist).take(len)`: a list of `len` independent draws. -/
def sampleChars (sampler : Oracle → Char × Oracle) : Nat → Oracle → List Char × Oracle
  | 0, o => ([], o)
  | n + 1, o =>
    let (c, o) := sampler o
    let (cs, o) := sampleChars sampler n o
    (c :: cs, o)

/-- Models `PathBuf` materialization: root plus `/`-joined segments.  Alphanumeric
segments are always valid Unicode, so `into_os_string().into_string()` cannot
fail; it is modelled as always `Option.some` and the source's `Err` retry
branch below is preserved but unreachable. -/
def intoString (root : String) (segs : List String) : Option String :=
  Option.some (root ++ String.join (segs.map (fun seg => "/" ++ seg)))

/-- The segment-appending `loop` of the `FileName` arm of `gen_str`.  `len`
is the single segment length drawn before the match (the source samples it
once and reuses it for every segment). -/
def genFileNameLoop (maxDepth lenSeg : Nat) (root : String) (segs : List String)
    (depth : Nat) (o : Oracle) (fuel : Nat) : Except GenErr (Value × Oracle) :=
  match fuel with
  | 0 => .error .fuelOut
  | fuel + 1 =>
    let (sub, o) := sampleChars sampleAlnum lenSeg o
    let segs := segs ++ [String.mk sub]
    let depth := depth + 1
    if depth < maxDepth then
      let (b, o) := o.nextBool
      if b then genFileNameLoop maxDepth lenSeg root segs depth o fuel
      else
        match intoString root segs with
        | Option.some p => .ok (Value.str p, o)
        | Option.none => genFileNameLoop maxDepth lenSeg "/" [] 0 o fuel
    else
      match intoString root segs with
      | Option.some p => .ok (Value.str p, o)
      | Option.none => genFileNameLoop maxDepth lenSeg "/" [] 0 o fuel

/-- Models `gen_str`.  A declared fixed value set short-circuits everything else;
otherwise one length is drawn from `[str_min_len, str_max_len)` and the kind
dispatches.  The `FileName` arm consults the pool only when it is nonempty
(`&&` short-circuit), and — exactly as in the source — never records the
fresh path into the pool. -/
def gen_str (str_type : StrType) (vals : Option (List String)) (s : State)
    (o : Oracle) (fuel : Nat) : Except GenErr (Value × State × Oracle) :=
  match vals with
  | Option.some vals =>
    match chooseL vals o with
    | .ok (v, o) => .ok (Value.str v, s, o)
    | .error e => .error e
  | Option.none =>
    match genRange s.conf.str_min_len s.conf.str_max_len o with
    | .error e => .error e
    | .ok (len, o) =>
      match str_type with
      | .str =>
        let (cs, o) := sampleChars sampleStdChar len o
        .ok (Value.str (String.mk cs), s, o)
      | .cstr =>
        let (cs, o) := sampleChars sampleAlnum len o
        .ok (Value.str (String.mk cs), s, o)
      | .fileName =>
        if (s.strs StrType.fileName).length ≠ 0 then
          let (b, o) := o.nextBool
          if b then
            match chooseL (s.strs StrType.fileName) o with
            | .ok (v, o) => .ok (Value.str v, s, o)
            | .error e => .error e
          else
            match genFileNameLoop s.conf.path_max_depth len "." [] 0 o fuel with
            | .ok (v, o) => .ok (v, s, o)
            | .error e => .error e
        else
          match genFileNameLoop s.conf.path_max_depth len "." [] 0 o fuel with
          | .ok (v, o) => .ok (v, s, o)
          | .error e => .error e

/-- Modelled from the spec: `Value::default_val` lives in
`src/core/src/value.rs`, which is not among the provided sources.  Spec §4.2
(Pointer row) specifies "emit a type-appropriate default/zero value (no
recursive synthesis — the callee is expected to populate it)".  We model the
zero value by type kind; it never contains a reference. -/
def default_val (tid : TypeId) (t : Target) : Value :=
  match t.type_of tid with
  | .num ni => if ni.signedQ then Value.num (NumValue.signed 0) else Value.num (NumValue.unsigned 0)
  | .str _ _ => Value.str ""
  | _ => Value.group []

mutual

/-- Models `gen_value`: dispatch over the type descriptor.  Every function in this
block spends one unit of fuel and hands the remainder to its callees, so the
recursion through the open type grammar is well-founded; with enough fuel the
behavior is exactly the source's. -/
def gen_value (fuel : Nat) (tid : TypeId) (t : Target) (s : State) (o : Oracle) :
    Except GenErr (Value × State × Oracle) :=
  match fuel with
  | 0 => .error .fuelOut
  | fuel + 1 =>
    match t.type_of tid with
    | .num num_info =>
      match gen_num num_info o with
      | .ok (v, o) => .ok (v, s, o)
      | .error e => .error e
    | .ptr dir ptid depth =>
      if depth = 1 then gen_ptr fuel dir ptid t s o
      else .error .ptrDepth
    | .slice etid l h => gen_slice fuel etid l h t s o
    | .str str_type vals => gen_str str_type vals s o fuel
    | .struct fields => gen_struct fuel fields t s o
    | .union fields => gen_union fuel fields t s o
    | .flag flags =>
      match gen_flag flags o fuel with
      | .ok (v, o) => .ok (v, s, o)
      | .error e => .error e
    | .alias under_id => gen_alias fuel tid under_id t s o
    | .res under_tid => gen_res fuel tid under_tid t s o
    | .len _ => .ok (Value.num (NumValue.unsigned 0), s, o)
termination_by structural fuel

/-- Models `gen_alias`: a resource-classified alias with recorded producers borrows
one (the `unwrap` aborts if the recorded list were empty); otherwise recurse
into the underlying type. -/
def gen_alias (fuel : Nat) (tid under_id : TypeId) (t : Target) (s : State)
    (o : Oracle) : Except GenErr (Value × State × Oracle) :=
  match fuel with
  | 0 => .error .fuelOut
  | fuel + 1 =>
    if t.is_res tid then
      match s.res tid with
      | Option.some res =>
        match chooseL res o with
        | .ok (index, o) => .ok (Value.ref index, s, o)
        | .error e => .error e
      | Option.none => gen_value fuel under_id t s o
    else gen_value fuel under_id t s o
termination_by structural fuel

/-- Models `gen_res`: with recorded producers for `res_tid`, assert nonemptiness and
emit a reference to a uniformly chosen one; with no entry, recurse into the
underlying type. -/
def gen_res (fuel : Nat) (res_tid tid : TypeId) (t : Target) (s : State)
    (o : Oracle) : Except GenErr (Value × State × Oracle) :=
  match fuel with
  | 0 => .error .fuelOut
  | fuel + 1 =>
    match s.res res_tid with
    | Option.some res =>
      if res.isEmpty then .error .resEmpty
      else
        match chooseL res o with
        | .ok (index, o) => .ok (Value.ref index, s, o)
        | .error e => .error e
    | Option.none => gen_value fuel tid t s o
termination_by structural fuel

/-- Models `gen_ptr`: a non-`In` pointer registers its pointee as a produced
resource when resource-classified and emits a default value; an `In` pointer
recurses into the pointee. -/
def gen_ptr (fuel : Nat) (dir : PtrDir) (tid : TypeId) (t : Target) (s : State)
    (o : Oracle) : Except GenErr (Value × State × Oracle) :=
  match fuel with
  | 0 => .error .fuelOut
  | fuel + 1 =>
    if dir ≠ PtrDir.In then
      let s := if t.is_res tid then s.record_res tid else s
      .ok (default_val tid t, s, o)
    else gen_value fuel tid t s o
termination_by structural fuel

/-- Models `gen_union`: abort on an empty field list, then synthesize one uniformly
chosen field.  (`fields[i]` with `i` drawn from `[0, len)` is always in
bounds; the `badIndex` arm is unreachable.) -/
def gen_union (fuel : Nat) (fields : List Field) (t : Target) (s : State)
    (o : Oracle) : Except GenErr (Value × State × Oracle) :=
  match fuel with
  | 0 => .error .fuelOut
  | fuel + 1 =>
    if fields.isEmpty then .error .emptyUnion
    else
      match genRange 0 fields.length o with
      | .error e => .error e
      | .ok (i, o) =>
        match fields.get? i with
        | Option.none => .error .badIndex
        | Option.some field =>
          match gen_value fuel field.tid t s o with
          | .ok (v, s, o) => .ok (Value.opt i v, s, o)
          | .error e => .error e
termination_by structural fuel

/-- Models `gen_struct`: synthesize every field in declared order, wrap as a group. -/
def gen_struct (fuel : Nat) (fields : List Field) (t : Target) (s : State)
    (o : Oracle) : Except GenErr (Value × State × Oracle) :=
  match fuel with
  | 0 => .error .fuelOut
  | fuel + 1 =>
    match gen_values fuel fields t s o with
    | .ok (vs, s, o) => .ok (Value.group vs, s, o)
    | .error e => .error e
termination_by structural fuel

/-- The field-by-field loop of `gen_struct`. -/
def gen_values (fuel : Nat) (fields : List Field) (t : Target) (s : State)
    (o : Oracle) : Except GenErr (List Value × State × Oracle) :=
  match fuel with
  | 0 => .error .fuelOut
  | fuel + 1 =>
    match fields with
    | [] => .ok ([], s, o)
    | field :: rest =>
      match gen_value fuel field.tid t s o with
      | .error e => .error e
      | .ok (v, s, o) =>
        match gen_values fuel rest t s o with
        | .error e => .error e
        | .ok (vs, s, o) => .ok (v :: vs, s, o)
termination_by structural fuel

/-- Models `gen_slice`: draw a length, synthesize that many elements, wrap as a
group. -/
def gen_slice (fuel : Nat) (tid : TypeId) (l h : Int) (t : Target) (s : State)
    (o : Oracle) : Except GenErr (Value × State × Oracle) :=
  match fuel with
  | 0 => .error .fuelOut
  | fuel + 1 =>
    match gen_slice_len l h o with
    | .error e => .error e
    | .ok (len, o) =>
      match gen_elems fuel tid len t s o with
      | .ok (vs, s, o) => .ok (Value.group vs, s, o)
      | .error e => .error e
termination_by structural fuel

/-- The `for _ in 0..len` loop of `gen_slice`. -/
def gen_elems (fuel : Nat) (tid : TypeId) (len : Nat) (t : Target) (s : State)
    (o : Oracle) : Except GenErr (List Value × State × Oracle) :=
  match fuel with
  | 0 => .error .fuelOut
  | fuel + 1 =>
    match len with
    | 0 => .ok ([], s, o)
    | len + 1 =>
      match gen_value fuel tid t s o with
      | .error e => .error e
      | .ok (v, s, o) =>
        match gen_elems fuel tid len t s o with
        | .error e => .error e
        | .ok (vs, s, o) => .ok (v :: vs, s, o)

termination_by structural fuel
end

/-- Models `s.prog.calls[ci].args.push(arg)`: append an argument to call `ci`. -/
def push_arg (s : State) (ci : Nat) (a : Arg) : State :=
  { s with prog := { s.prog with
      calls := s.prog.calls.modify (fun c => { c with args := c.args ++ [a] }) ci } }

/-- Models `s.prog.calls[ci].ret = Some(arg)`. -/
def set_ret (s : State) (ci : Nat) (a : Arg) : State :=
  { s with prog := { s.prog with
      calls := s.prog.calls.modify (fun c => { c with ret := Option.some a }) ci } }

/-- Models `s.prog.calls[ci].args.len()`. -/
def args_len (s : State) (ci : Nat) : Nat :=
  match s.prog.calls.get? ci with
  | Option.some c => c.args.length
  | Option.none => 0

/-- The parameter loop of `gen_call`: for the `i`-th parameter, set the
argument cursor, synthesize the value, and push it onto call `ci`. -/
def gen_args (fuel : Nat) (t : Target) (ci : Nat) (i : Nat) :
    List Field → State → Oracle → Except GenErr (State × Oracle)
  | [], s, o => .ok (s, o)
  | p :: rest, s, o =>
    let s := { s with argi := i }
    match gen_value fuel p.tid t s o with
    | .error e => .error e
    | .ok (val, s, o) =>
      let s := push_arg s ci ⟨p.tid, val⟩
      gen_args fuel t ci (i + 1) rest s o

/-- Models `gen_call`: reset the cursor, append a fresh call, synthesize the
arguments, then — when the return type is resource-classified — record the
return position as a producer and attach a placeholder return argument. -/
def gen_call (fuel : Nat) (t : Target) (f : FnInfo) (s : State) (o : Oracle) :
    Except GenErr (State × Oracle) :=
  let s := { s with argi := 0 }
  let s := s.add_call (Call.new f.id)
  let call_index := s.prog.calls.length - 1
  match (if f.has_params then gen_args fuel t call_index 0 f.params s o
         else .ok (s, o)) with
  | .error e => .error e
  | .ok (s, o) =>
    match f.r_tid with
    | Option.some tid =>
      let s := { s with argi := args_len s call_index }
      if t.is_res tid then
        let s := s.record_res tid
        let s := set_ret s call_index ⟨tid, Value.none⟩
        .ok (s, o)
      else .ok (s, o)
    | Option.none => .ok (s, o)

/-- The `for &i in seq.iter()` loop of `gen`: index into the group's
operation list (aborting when a plan index is out of bounds, as Rust
indexing would) and generate each call. -/
def gen_calls (fuel : Nat) (t : Target) (g : Group) :
    List Nat → State → Oracle → Except GenErr (State × Oracle)
  | [], s, o => .ok (s, o)
  | i :: rest, s, o =>
    match g.fns.get? i with
    | Option.none => .error .badIndex
    | Option.some f =>
      match gen_call fuel t f s o with
      | .error e => .error e
      | .ok (s, o) => gen_calls fuel t g rest s o

/-- Mark an index in the membership bitset (`set.set(index, true)`). -/
def setMark (set : Nat → Bool) (i : Nat) : Nat → Bool :=
  fun j => if j = i then true else set j

/-- The shared body of the two inclusion rules of `push_deps`: an unmarked
target is included (and marked) when its coin succeeds; an already-marked
target is re-included (without marking) when its coin succeeds.  The source
repeats this block verbatim for the `Possible` and `Unknown` cells (only the
coin biases differ, which the oracle abstracts). -/
def push_deps_flip (j : Nat) (set : Nat → Bool) (deps : List Nat) (o : Oracle) :
    (Nat → Bool) × List Nat × Oracle :=
  if !set j then
    let (b, o) := o.nextBool
    if b then (setMark set j, deps ++ [j], o) else (set, deps, o)
  else
    let (b, o) := o.nextBool
    if b then (set, deps ++ [j], o) else (set, deps, o)

/-- The column sweep of `push_deps` over row `index`: the two independent
`if` statements of the source, each drawing exactly one coin when its
marked/unmarked guard passes (`&&` short-circuit), accumulating inclusions
in column order.  The bitset/deps/oracle triple is threaded through
projections. -/
def push_deps_cols (rs : RTable) (index : Nat) :
    List Nat → (Nat → Bool) → List Nat → Oracle → ((Nat → Bool) × List Nat × Oracle)
  | [], set, deps, o => (set, deps, o)
  | j :: js, set, deps, o =>
    let r := rs.rel index j
    let t1 := if r = Relation.some then push_deps_flip j set deps o else (set, deps, o)
    let t2 := if r = Relation.unknown then push_deps_flip j t1.1 t1.2.1 t1.2.2 else t1
    push_deps_cols rs index js t2.1 t2.2.1 t2.2.2

/-- Models `push_deps`: dependency closure from position `i`, bounded by the
program-length budget.  The guard order matches the source
(`i >= seq.len() || seq.len() >= conf.prog_max_len`).  The recursion into
`i + 1` is fuel-bounded (the source argues termination from the finite table
and budget; adequate fuel is supplied by the caller). -/
def push_deps (fuel : Nat) (rs : RTable) (conf : Config) (set : Nat → Bool)
    (seq : List Nat) (i : Nat) (o : Oracle) :
    Except GenErr ((Nat → Bool) × List Nat × Oracle) :=
  match fuel with
  | 0 => .error .fuelOut
  | fuel + 1 =>
    if h : i ≥ seq.length then .ok (set, seq, o)
    else if seq.length ≥ conf.prog_max_len then .ok (set, seq, o)
    else
      let index := seq.get ⟨i, Nat.lt_of_not_le h⟩
      let pc := push_deps_cols rs index (List.range rs.n) set [] o
      push_deps fuel rs conf pc.1 (seq ++ pc.2.1) (i + 1) pc.2.2

/-- The root-picking loop of `choose_seq`: pick a random root, mark and
append it, run the closure, then — while the budget is not exceeded — flip a
coin to continue.  Each iteration appends at least one entry, so fuel
`prog_max_len + 2` always suffices. -/
def choose_seq_loop (fuel : Nat) (rs : RTable) (conf : Config)
    (set : Nat → Bool) (seq : List Nat) (o : Oracle) :
    Except GenErr (List Nat × Oracle) :=
  match fuel with
  | 0 => .error .fuelOut
  | fuel + 1 =>
    match genRange 0 rs.len o with
    | .error e => .error e
    | .ok (index, o) =>
      let set := setMark set index
      let seq := seq ++ [index]
      let i := seq.length - 1
      match push_deps (conf.prog_max_len + rs.n + 1) rs conf set seq i o with
      | .error e => .error e
      | .ok (set, seq, o) =>
        if seq.length ≤ conf.prog_max_len then
          let (b, o) := o.nextBool
          if b then choose_seq_loop fuel rs conf set seq o
          else .ok (seq, o)
        else .ok (seq, o)

/-- Models `choose_seq`: assert a nonempty table, then run the root loop with an
initially empty bitset and plan. -/
def choose_seq (rs : RTable) (conf : Config) (o : Oracle) :
    Except GenErr (List Nat × Oracle) :=
  if rs.len = 0 then .error .emptyTable
  else choose_seq_loop (conf.prog_max_len + 2) rs conf (fun _ => false) [] o

/-- Models `gen`: the top-level entry point.  Abort on an empty relation-table map;
pick a group uniformly, plan with `choose_seq`, then generate each planned
call from a fresh state. -/
def gen (fuel : Nat) (t : Target) (rs : List (GroupId × RTable)) (conf : Config)
    (o : Oracle) : Except GenErr Prog :=
  if rs.isEmpty then .error .emptyRTables
  else
    match chooseL rs o with
    | .error e => .error e
    | .ok ((gid, r), o) =>
      let g := t.groups gid
      match choose_seq r conf o with
      | .error e => .error e
      | .ok (seq, o) =>
        match gen_calls fuel t g seq (State.new (Prog.new gid) conf) o with
        | .error e => .error e
        | .ok (s, _) => .ok s.prog

/-! ### Predicates for the specification's properties -/

mutual

/-- Every `Value.ref` inside the value has call position `< b`
(`strict = true`) respectively `≤ b` (`strict = false`). -/
def Value.refsOK (strict : Bool) (b : Nat) : Value → Bool
  | .num _ => true
  | .str _ => true
  | .none => true
  | .ref ai => if strict then decide (ai.1 < b) else decide (ai.1 ≤ b)
  | .opt _ v => Value.refsOK strict b v
  | .group vs => Value.refsOKList strict b vs

def Value.refsOKList (strict : Bool) (b : Nat) : List Value → Bool
  | [] => true
  | v :: vs => Value.refsOK strict b v && Value.refsOKList strict b vs

end

/-- Every reference in the call (arguments and return slot) has call
position `< i` / `≤ i`. -/
def Call.refsOK (strict : Bool) (i : Nat) (c : Call) : Bool :=
  c.args.all (fun a => a.val.refsOK strict i) &&
  (match c.ret with
   | Option.some a => a.val.refsOK strict i
   | Option.none => true)

/-- Models `Call.refsOK` for each call in the list, the first one at position `i`. -/
def callsFrom (strict : Bool) : Nat → List Call → Bool
  | _, [] => true
  | i, c :: rest => Call.refsOK strict i c && callsFrom strict (i + 1) rest

/-- Claim C1 as written: every reference points *strictly* backward. -/
def Prog.backwardLT (p : Prog) : Bool := callsFrom true 0 p.calls

/-- The amended property: no reference points forward (same-call references
are possible). -/
def Prog.backwardLE (p : Prog) : Bool := callsFrom false 0 p.calls

/-- Resource-index invariant: every recorded producer list is nonempty and
every recorded call position lies inside the current program. -/
def ResOK (s : State) : Prop :=
  ∀ tid l, s.res tid = Option.some l → l ≠ [] ∧ ∀ ai ∈ l, ai.1 < s.prog.len

/-- Well-formed catalog in the sense of spec §7: every pointer depth is 1 and
no flag or union type has an empty member list. -/
def WFT (t : Target) : Prop :=
  (∀ tid dir ptid depth, t.type_of tid = .ptr dir ptid depth → depth = 1) ∧
  (∀ tid flags, t.type_of tid = .flag flags → flags ≠ []) ∧
  (∀ tid fields, t.type_of tid = .union fields → fields ≠ [])

/-- Errors that are not one of the configuration/catalog assertions of spec
§7 and not the resource-availability assertion. -/
def benignErr (e : GenErr) : Prop :=
  e = .fuelOut ∨ e = .rangeEmpty ∨ e = .chooseEmpty ∨ e = .badIndex

/-- The four assertion-style fatal conditions enumerated by claim C8. -/
def listedErr (e : GenErr) : Prop :=
  e = .emptyRTables ∨ e = .ptrDepth ∨ e = .emptyFlags ∨ e = .emptyUnion

/-- Error classification produced by the synthesizer: either benign, or one
of the catalog assertions — and then the catalog is malformed. -/
def errOut (t : Target) (e : GenErr) : Prop :=
  benignErr e ∨ ((e = .ptrDepth ∨ e = .emptyFlags ∨ e = .emptyUnion) ∧ ¬ WFT t)

/-- State evolution allowed to a value-synthesizer call: the program, the
configuration and the argument cursor are untouched and the resource-index
invariant is preserved (only `record_res` may extend the index). -/
def VOkS (s s' : State) : Prop :=
  s'.prog = s.prog ∧ s'.conf = s.conf ∧ s'.argi = s.argi ∧ ResOK s'

/-- Full outcome contract of one value-synthesizer call: errors are classified
by `errOut`, and a successful value evolves the state by `VOkS` and contains
only references to calls up to the current one. -/
def VOut (t : Target) (s : State) (r : Except GenErr (Value × State × Oracle)) : Prop :=
  (∀ e, r = .error e → errOut t e) ∧
  (∀ v s' o', r = .ok (v, s', o') →
    VOkS s s' ∧ Value.refsOK false (s.prog.len - 1) v = true)

/-- Models `VOut` for the list-producing loops (`gen_values`, `gen_elems`). -/
def VOutL (t : Target) (s : State) (r : Except GenErr (List Value × State × Oracle)) : Prop :=
  (∀ e, r = .error e → errOut t e) ∧
  (∀ vs s' o', r = .ok (vs, s', o') →
    VOkS s s' ∧ Value.refsOKList false (s.prog.len - 1) vs = true)

/-- A signed value satisfies its numeric limit. -/
def limSatI (l : NumLimit Int) (i : Int) : Prop :=
  match l with
  | .vals vs => i ∈ vs
  | .range s e => s ≤ i ∧ i < e
  | .none => True

/-- An unsigned value satisfies its numeric limit. -/
def limSatU (l : NumLimit Nat) (u : Nat) : Prop :=
  match l with
  | .vals vs => u ∈ vs
  | .range s e => s ≤ u ∧ u < e
  | .none => True

/-- Claim C6's contract for one numeric descriptor: canonical 64-bit signed
or unsigned form according to the source signedness, satisfying the limit. -/
def numOK : NumInfo → Value → Prop
  | .i8 l, v | .i16 l, v | .i32 l, v | .i64 l, v | .isize l, v =>
    ∃ i, v = Value.num (NumValue.signed i) ∧ limSatI l i
  | .u8 l, v | .u16 l, v | .u32 l, v | .u64 l, v | .usize l, v =>
    ∃ u, v = Value.num (NumValue.unsigned u) ∧ limSatU l u

/-! ### Concrete instances used by witnesses and counterexamples -/

/-- Models `{prog_max_len 1, str_min_len 2, str_max_len 4, path_max_depth 1}`. -/
def cfgA : Config := ⟨1, 2, 4, 1⟩

/-- A target whose every type is an unconstrained `u8` and whose single
group holds one unary operation. -/
def tNum : Target :=
  ⟨fun _ => ⟨[⟨0, [⟨0⟩], Option.none⟩]⟩, fun _ => .num (.u8 .none), fun _ => false⟩

/-- One group with a 1×1 all-`none` relation table. -/
def rsOne : List (GroupId × RTable) := [(0, ⟨1, fun _ _ => Relation.none⟩)]

/-- Target for the C1 counterexample: one operation
`f(p0: ptr out R, p1: R)` where type 1 (`R`) is resource-classified. -/
def tCex : Target :=
  ⟨fun _ => ⟨[⟨7, [⟨0⟩, ⟨1⟩], Option.none⟩]⟩,
   fun tid => if tid = 0 then .ptr PtrDir.Out 1 1
              else if tid = 1 then .res 2
              else .num (.u8 .none),
   fun tid => tid = 1⟩

/-- The program `gen` produces from `tCex` on the all-zero oracle: the
reference in argument 1 of call 0 points at argument 0 of the same call. -/
def progCex : Prog :=
  ⟨0, [⟨7, [⟨0, Value.group []⟩, ⟨1, Value.ref (0, 0)⟩], Option.none⟩]⟩

/-- Fresh state with configuration `cfgA` (empty pool, empty program). -/
def sPath : State := State.new (Prog.new 0) cfgA

/-- A 1×1 relation table whose single cell is `Possible`. -/
def rsDup : RTable := ⟨1, fun _ _ => Relation.some⟩

/-- Budget 2 configuration for the duplicated-plan run. -/
def cfgDup : Config := ⟨2, 2, 4, 1⟩

/-- State whose resource index records exactly one producer for type 5. -/
def sRes : State :=
  { State.new (Prog.new 0) cfgA with
    res := fun tid => if tid = 5 then Option.some [(0, 0)] else Option.none }

/-- A target whose every type is a depth-2 pointer (malformed catalog). -/
def tPtr2 : Target :=
  ⟨fun _ => ⟨[]⟩, fun _ => .ptr PtrDir.In 0 2, fun _ => false⟩

/-! ### Basic lemmas about the random helpers -/

theorem genRange_ok {lo hi v : Nat} {o o' : Oracle}
    (h : genRange lo hi o = .ok (v, o')) : lo ≤ v ∧ v < hi := by
  unfold genRange at h
  by_cases hlt : lo < hi
  · simp only [if_pos hlt, Except.ok.injEq, Prod.mk.injEq] at h
    have hm : (Oracle.next o).1 % (hi - lo) < hi - lo := Nat.mod_lt _ (by omega)
    omega
  · simp [if_neg hlt] at h

theorem genRange_err {lo hi : Nat} {o : Oracle} {e : GenErr}
    (h : genRange lo hi o = .error e) : e = .rangeEmpty ∧ hi ≤ lo := by
  unfold genRange at h
  by_cases hlt : lo < hi
  · simp [if_pos hlt] at h
  · rw [if_neg hlt] at h
    simp only [Except.error.injEq] at h
    exact ⟨h.symm, by omega⟩

theorem genRangeInt_ok {lo hi v : Int} {o o' : Oracle}
    (h : genRangeInt lo hi o = .ok (v, o')) : lo ≤ v ∧ v < hi := by
  unfold genRangeInt at h
  by_cases hlt : lo < hi
  · simp only [if_pos hlt, Except.ok.injEq, Prod.mk.injEq] at h
    have h0 : (0 : Int) < hi - lo := by omega
    have hm1 : 0 ≤ ((Oracle.next o).1 : Int) % (hi - lo) := Int.emod_nonneg _ (by omega)
    have hm2 : ((Oracle.next o).1 : Int) % (hi - lo) < hi - lo := Int.emod_lt_of_pos _ h0
    omega
  · simp [if_neg hlt] at h

theorem genRangeInt_err {lo hi : Int} {o : Oracle} {e : GenErr}
    (h : genRangeInt lo hi o = .error e) : e = .rangeEmpty := by
  unfold genRangeInt at h
  by_cases hlt : lo < hi
  · simp [if_pos hlt] at h
  · rw [if_neg hlt] at h
    simp only [Except.error.injEq] at h
    exact h.symm

theorem chooseL_mem {l : List α} {o o' : Oracle} {a : α}
    (h : chooseL l o = .ok (a, o')) : a ∈ l := by
  match l with
  | [] => simp [chooseL] at h
  | x :: xs =>
    simp only [chooseL, Except.ok.injEq, Prod.mk.injEq] at h
    obtain ⟨h1, -⟩ := h
    exact h1 ▸ List.get_mem _ _ _

theorem chooseL_err {l : List α} {o : Oracle} {e : GenErr}
    (h : chooseL l o = .error e) : e = .chooseEmpty ∧ l = [] := by
  match l with
  | [] => simp only [chooseL, Except.error.injEq] at h; exact ⟨h.symm, rfl⟩
  | x :: xs => simp [chooseL] at h

theorem chooseL_nonempty {l : List α} (o : Oracle) (hne : l ≠ []) :
    ∃ a o', chooseL l o = .ok (a, o') ∧ a ∈ l := by
  match l with
  | [] => exact absurd rfl hne
  | x :: xs => exact ⟨_, _, rfl, List.get_mem _ _ _⟩

/-! ### Lemmas about the numeric generator -/

theorem genNumSigned_ok {w : Nat} {l : NumLimit Int} {o o' : Oracle} {v : Value}
    (h : genNumSigned w l o = .ok (v, o')) :
    ∃ i, v = Value.num (NumValue.signed i) ∧ limSatI l i := by
  match l with
  | .vals vals =>
    simp only [genNumSigned] at h
    cases hc : chooseL vals o with
    | ok p =>
      rw [hc] at h
      simp only [Except.ok.injEq, Prod.mk.injEq] at h
      exact ⟨p.1, h.1.symm, chooseL_mem (by rw [hc])⟩
    | error e => rw [hc] at h; simp at h
  | .range s e =>
    simp only [genNumSigned] at h
    cases hc : genRangeInt s e o with
    | ok p =>
      rw [hc] at h
      simp only [Except.ok.injEq, Prod.mk.injEq] at h
      exact ⟨p.1, h.1.symm, genRangeInt_ok (by rw [hc])⟩
    | error er => rw [hc] at h; simp at h
  | .none =>
    simp only [genNumSigned, Except.ok.injEq, Prod.mk.injEq] at h
    exact ⟨(sampleI w o).1, h.1.symm, trivial⟩

theorem genNumSigned_err {w : Nat} {l : NumLimit Int} {o : Oracle} {e : GenErr}
    (h : genNumSigned w l o = .error e) : benignErr e := by
  match l with
  | .vals vals =>
    simp only [genNumSigned] at h
    cases hc : chooseL vals o with
    | ok p => rw [hc] at h; simp at h
    | error er =>
      rw [hc] at h
      simp only [Except.error.injEq] at h
      subst h
      exact Or.inr (Or.inr (Or.inl (chooseL_err hc).1))
  | .range s e' =>
    simp only [genNumSigned] at h
    cases hc : genRangeInt s e' o with
    | ok p => rw [hc] at h; simp at h
    | error er =>
      rw [hc] at h
      simp only [Except.error.injEq] at h
      subst h
      exact Or.inr (Or.inl (genRangeInt_err hc))
  | .none => simp [genNumSigned] at h

theorem genNumUnsigned_ok {w : Nat} {l : NumLimit Nat} {o o' : Oracle} {v : Value}
    (h : genNumUnsigned w l o = .ok (v, o')) :
    ∃ u, v = Value.num (NumValue.unsigned u) ∧ limSatU l u := by
  match l with
  | .vals vals =>
    simp only [genNumUnsigned] at h
    cases hc : chooseL vals o with
    | ok p =>
      rw [hc] at h
      simp only [Except.ok.injEq, Prod.mk.injEq] at h
      exact ⟨p.1, h.1.symm, chooseL_mem (by rw [hc])⟩
    | error e => rw [hc] at h; simp at h
  | .range s e =>
    simp only [genNumUnsigned] at h
    cases hc : genRange s e o with
    | ok p =>
      rw [hc] at h
      simp only [Except.ok.injEq, Prod.mk.injEq] at h
      exact ⟨p.1, h.1.symm, genRange_ok (by rw [hc])⟩
    | error er => rw [hc] at h; simp at h
  | .none =>
    simp only [genNumUnsigned, Except.ok.injEq, Prod.mk.injEq] at h
    exact ⟨(sampleU w o).1, h.1.symm, trivial⟩

theorem genNumUnsigned_err {w : Nat} {l : NumLimit Nat} {o : Oracle} {e : GenErr}
    (h : genNumUnsigned w l o = .error e) : benignErr e := by
  match l with
  | .vals vals =>
    simp only [genNumUnsigned] at h
    cases hc : chooseL vals o with
    | ok p => rw [hc] at h; simp at h
    | error er =>
      rw [hc] at h
      simp only [Except.error.injEq] at h
      subst h
      exact Or.inr (Or.inr (Or.inl (chooseL_err hc).1))
  | .range s e' =>
    simp only [genNumUnsigned] at h
    cases hc : genRange s e' o with
    | ok p => rw [hc] at h; simp at h
    | error er =>
      rw [hc] at h
      simp only [Except.error.injEq] at h
      subst h
      exact Or.inr (Or.inl (genRange_err hc).1)
  | .none => simp [genNumUnsigned] at h

theorem gen_num_ok {ni : NumInfo} {o o' : Oracle} {v : Value}
    (h : gen_num ni o = .ok (v, o')) : numOK ni v := by
  cases ni <;>
    first
      | exact genNumSigned_ok h
      | exact genNumUnsigned_ok h

theorem gen_num_err {ni : NumInfo} {o : Oracle} {e : GenErr}
    (h : gen_num ni o = .error e) : benignErr e := by
  cases ni <;>
    first
      | exact genNumSigned_err h
      | exact genNumUnsigned_err h

/-! ### Lemmas about the flag, string and slice-length generators -/

theorem flagLoop_err {flags : List Flag} {val : Int} {o : Oracle} {fuel : Nat}
    {e : GenErr} (h : flagLoop flags val o fuel = .error e) : benignErr e := by
  induction fuel generalizing val o with
  | zero =>
    simp only [flagLoop, Except.error.injEq] at h
    exact Or.inl h.symm
  | succ fuel ih =>
    simp only [flagLoop] at h
    split at h
    · split at h
      · exact ih h
      · rename_i heq
        simp only [Except.error.injEq] at h
        subst h
        exact Or.inr (Or.inr (Or.inl (chooseL_err heq).1))
    · simp at h

theorem gen_flag_err {flags : List Flag} {o : Oracle} {fuel : Nat} {e : GenErr}
    (h : gen_flag flags o fuel = .error e) :
    (e = .emptyFlags ∧ flags = []) ∨ benignErr e := by
  unfold gen_flag at h
  split at h
  · rename_i hne
    simp only [Except.error.injEq] at h
    exact Or.inl ⟨h.symm, List.isEmpty_iff.mp hne⟩
  · split at h
    split at h
    · split at h
      simp at h
    · split at h
      · exact Or.inr (flagLoop_err h)
      · rename_i heq
        simp only [Except.error.injEq] at h
        subst h
        exact Or.inr (Or.inr (Or.inr (Or.inl (chooseL_err heq).1)))

theorem sampleChars_len (f : Oracle → Char × Oracle) (n : Nat) (o : Oracle) :
    (sampleChars f n o).1.length = n := by
  induction n generalizing o with
  | zero => simp [sampleChars]
  | succ n ih => simp [sampleChars, ih]

theorem genFileNameLoop_err {maxDepth lenSeg : Nat} {root : String}
    {segs : List String} {depth : Nat} {o : Oracle} {fuel : Nat} {e : GenErr}
    (h : genFileNameLoop maxDepth lenSeg root segs depth o fuel = .error e) :
    benignErr e := by
  induction fuel generalizing root segs depth o with
  | zero =>
    simp only [genFileNameLoop, Except.error.injEq] at h
    exact Or.inl h.symm
  | succ fuel ih =>
    simp only [genFileNameLoop] at h
    split at h
    · split at h
      · exact ih h
      · split at h
        · simp at h
        · exact ih h
    · split at h
      · simp at h
      · exact ih h

theorem genFileNameLoop_ok {maxDepth lenSeg : Nat} {root : String}
    {segs : List String} {depth : Nat} {o o' : Oracle} {fuel : Nat} {v : Value}
    (h : genFileNameLoop maxDepth lenSeg root segs depth o fuel = .ok (v, o')) :
    ∃ p, v = Value.str p := by
  induction fuel generalizing root segs depth o with
  | zero => simp [genFileNameLoop] at h
  | succ fuel ih =>
    simp only [genFileNameLoop] at h
    split at h
    · split at h
      · exact ih h
      · split at h
        · simp only [Except.ok.injEq, Prod.mk.injEq] at h
          exact ⟨_, h.1.symm⟩
        · exact ih h
    · split at h
      · simp only [Except.ok.injEq, Prod.mk.injEq] at h
        exact ⟨_, h.1.symm⟩
      · exact ih h

theorem gen_str_ok {st : StrType} {vals : Option (List String)} {s s' : State}
    {o o' : Oracle} {fuel : Nat} {v : Value}
    (h : gen_str st vals s o fuel = .ok (v, s', o')) :
    s' = s ∧ ∃ p, v = Value.str p := by
  unfold gen_str at h
  split at h
  · split at h
    · simp only [Except.ok.injEq, Prod.mk.injEq] at h
      exact ⟨h.2.1.symm, _, h.1.symm⟩
    · simp at h
  · split at h
    · simp at h
    · split at h
      · split at h
        simp only [Except.ok.injEq, Prod.mk.injEq] at h
        exact ⟨h.2.1.symm, _, h.1.symm⟩
      · split at h
        simp only [Except.ok.injEq, Prod.mk.injEq] at h
        exact ⟨h.2.1.symm, _, h.1.symm⟩
      · split at h
        · split at h
          split at h
          · split at h
            · simp only [Except.ok.injEq, Prod.mk.injEq] at h
              exact ⟨h.2.1.symm, _, h.1.symm⟩
            · simp at h
          · split at h
            · rename_i heq
              simp only [Except.ok.injEq, Prod.mk.injEq] at h
              obtain ⟨p, hp2⟩ := genFileNameLoop_ok heq
              exact ⟨h.2.1.symm, p, by rw [← h.1, hp2]⟩
            · simp at h
        · split at h
          · rename_i heq
            simp only [Except.ok.injEq, Prod.mk.injEq] at h
            obtain ⟨p, hp2⟩ := genFileNameLoop_ok heq
            exact ⟨h.2.1.symm, p, by rw [← h.1, hp2]⟩
          · simp at h

theorem gen_str_err {st : StrType} {vals : Option (List String)} {s : State}
    {o : Oracle} {fuel : Nat} {e : GenErr}
    (h : gen_str st vals s o fuel = .error e) : benignErr e := by
  unfold gen_str at h
  split at h
  · split at h
    · simp at h
    · rename_i heq
      simp only [Except.error.injEq] at h
      subst h
      exact Or.inr (Or.inr (Or.inl (chooseL_err heq).1))
  · split at h
    · rename_i heq
      simp only [Except.error.injEq] at h
      subst h
      exact Or.inr (Or.inl (genRange_err heq).1)
    · split at h
      · split at h
        simp at h
      · split at h
        simp at h
      · split at h
        · split at h
          split at h
          · split at h
            · simp at h
            · rename_i heq
              simp only [Except.error.injEq] at h
              subst h
              exact Or.inr (Or.inr (Or.inl (chooseL_err heq).1))
          · split at h
            · simp at h
            · rename_i heq
              simp only [Except.error.injEq] at h
              subst h
              exact genFileNameLoop_err heq
        · split at h
          · simp at h
          · rename_i heq
            simp only [Except.error.injEq] at h
            subst h
            exact genFileNameLoop_err heq

theorem gen_slice_len_err {l h : Int} {o : Oracle} {e : GenErr}
    (he : gen_slice_len l h o = .error e) : benignErr e := by
  unfold gen_slice_len at he
  split at he
  · exact Or.inr (Or.inl (genRange_err he).1)
  · split at he
    · exact Or.inr (Or.inl (genRange_err he).1)
    · exact Or.inr (Or.inl (genRange_err he).1)

theorem flagLoop_num {flags : List Flag} {val : Int} {o o' : Oracle} {fuel : Nat}
    {v : Value} (h : flagLoop flags val o fuel = .ok (v, o')) :
    ∃ nv, v = Value.num nv := by
  induction fuel generalizing val o with
  | zero => simp [flagLoop] at h
  | succ fuel ih =>
    simp only [flagLoop] at h
    split at h
    · split at h
      · exact ih h
      · simp at h
    · simp only [Except.ok.injEq, Prod.mk.injEq] at h
      exact ⟨_, h.1.symm⟩

theorem gen_flag_num {flags : List Flag} {o o' : Oracle} {fuel : Nat} {v : Value}
    (h : gen_flag flags o fuel = .ok (v, o')) : ∃ nv, v = Value.num nv := by
  unfold gen_flag at h
  split at h
  · simp at h
  · split at h
    split at h
    · split at h
      simp only [Except.ok.injEq, Prod.mk.injEq] at h
      exact ⟨_, h.1.symm⟩
    · split at h
      · exact flagLoop_num h
      · simp at h

/-! ### State and reference-bound auxiliaries -/

theorem refsOK_ref {b : Nat} {ai : ArgIndex} (h : ai.1 ≤ b) :
    Value.refsOK false b (Value.ref ai) = true := by
  simp [Value.refsOK, h]

theorem refsOK_opt (strict : Bool) (b i : Nat) (v : Value) :
    Value.refsOK strict b (Value.opt i v) = Value.refsOK strict b v := rfl

theorem refsOK_group (strict : Bool) (b : Nat) (vs : List Value) :
    Value.refsOK strict b (Value.group vs) = Value.refsOKList strict b vs := rfl

theorem refsOKList_cons (strict : Bool) (b : Nat) (v : Value) (vs : List Value) :
    Value.refsOKList strict b (v :: vs) =
      (Value.refsOK strict b v && Value.refsOKList strict b vs) := rfl

theorem numOK_refsOK {ni : NumInfo} {v : Value} (h : numOK ni v)
    (strict : Bool) (b : Nat) : Value.refsOK strict b v = true := by
  cases ni <;> (obtain ⟨i, rfl, -⟩ := h; rfl)

theorem default_val_refsOK (strict : Bool) (b : Nat) (tid : TypeId) (t : Target) :
    Value.refsOK strict b (default_val tid t) = true := by
  unfold default_val
  split
  · split <;> rfl
  · rfl
  · rfl

theorem record_res_prog (s : State) (tid : TypeId) :
    (s.record_res tid).prog = s.prog := rfl

theorem ResOK_record_res {s : State} (hs : ResOK s) (hlen : 1 ≤ s.prog.len)
    (tid : TypeId) : ResOK (s.record_res tid) := by
  intro u l hl
  have hprog : (s.record_res tid).prog = s.prog := rfl
  unfold State.record_res at hl
  simp only at hl
  by_cases hu : u = tid
  · rw [if_pos hu] at hl
    simp only [Option.some.injEq] at hl
    subst hl
    refine ⟨by simp, ?_⟩
    intro ai hai
    rw [hprog]
    rcases List.mem_append.mp hai with hin | hin
    · cases hres : s.res tid with
      | some l₀ =>
        rw [hres] at hin
        simp only [Option.getD_some] at hin
        exact (hs tid l₀ hres).2 ai hin
      | none => rw [hres] at hin; simp at hin
    · simp only [List.mem_singleton] at hin
      subst hin
      simp only
      omega
  · rw [if_neg hu] at hl
    obtain ⟨h1, h2⟩ := hs u l hl
    refine ⟨h1, ?_⟩
    intro ai hai
    rw [hprog]
    exact h2 ai hai

theorem VOkS_refl {s : State} (hs : ResOK s) : VOkS s s := ⟨rfl, rfl, rfl, hs⟩

theorem VOkS_trans {s s₁ s₂ : State} (h1 : VOkS s s₁) (h2 : VOkS s₁ s₂) :
    VOkS s s₂ :=
  ⟨h2.1.trans h1.1, h2.2.1.trans h1.2.1, h2.2.2.1.trans h1.2.2.1, h2.2.2.2⟩

/-! ### The value-synthesizer invariant (master induction over fuel) -/

theorem valueInv : ∀ fuel : Nat,
    (∀ tid t s o, ResOK s → 1 ≤ s.prog.len →
      VOut t s (gen_value fuel tid t s o)) ∧
    (∀ tid uid t s o, ResOK s → 1 ≤ s.prog.len →
      VOut t s (gen_alias fuel tid uid t s o)) ∧
    (∀ rtid tid t s o, ResOK s → 1 ≤ s.prog.len →
      VOut t s (gen_res fuel rtid tid t s o)) ∧
    (∀ dir tid t s o, ResOK s → 1 ≤ s.prog.len →
      VOut t s (gen_ptr fuel dir tid t s o)) ∧
    (∀ fields t s o, ResOK s → 1 ≤ s.prog.len →
      (∀ e, gen_union fuel fields t s o = .error e →
        errOut t e ∨ (e = .emptyUnion ∧ fields = [])) ∧
      (∀ v s' o', gen_union fuel fields t s o = .ok (v, s', o') →
        VOkS s s' ∧ Value.refsOK false (s.prog.len - 1) v = true)) ∧
    (∀ fields t s o, ResOK s → 1 ≤ s.prog.len →
      VOut t s (gen_struct fuel fields t s o)) ∧
    (∀ fields t s o, ResOK s → 1 ≤ s.prog.len →
      VOutL t s (gen_values fuel fields t s o)) ∧
    (∀ tid l h t s o, ResOK s → 1 ≤ s.prog.len →
      VOut t s (gen_slice fuel tid l h t s o)) ∧
    (∀ tid len t s o, ResOK s → 1 ≤ s.prog.len →
      VOutL t s (gen_elems fuel tid len t s o)) := by
  intro fuel
  induction fuel with
  | zero =>
    refine ⟨?_, ?_, ?_, ?_, ?_, ?_, ?_, ?_, ?_⟩ <;>
      · intros
        constructor
        · intro e he
          simp only [gen_value, gen_alias, gen_res, gen_ptr, gen_union, gen_struct,
            gen_values, gen_slice, gen_elems, Except.error.injEq] at he
          first
            | exact Or.inl (Or.inl he.symm)
            | exact Or.inl (Or.inl (Or.inl he.symm))
        · intro v s' o' hok
          simp [gen_value, gen_alias, gen_res, gen_ptr, gen_union, gen_struct,
            gen_values, gen_slice, gen_elems] at hok
  | succ fuel ih =>
    obtain ⟨ihV, ihA, ihR, ihP, ihU, ihSt, ihVs, ihSl, ihEl⟩ := ih
    refine ⟨?_, ?_, ?_, ?_, ?_, ?_, ?_, ?_, ?_⟩
    -- gen_value
    · intro tid t s o hs hlen
      rcases hty : t.type_of tid with ni | ⟨dir, ptid, depth⟩ | ⟨etid, lo, hi⟩ |
        ⟨st, vals⟩ | fields | fields | flags | uid | utid | ltid
      all_goals constructor
      -- num
      · intro e he
        simp only [gen_value, hty] at he
        split at he
        · simp at he
        · rename_i heq
          simp only [Except.error.injEq] at he
          subst he
          exact Or.inl (gen_num_err heq)
      · intro v s' o' hok
        simp only [gen_value, hty] at hok
        split at hok
        · rename_i heq
          simp only [Except.ok.injEq, Prod.mk.injEq] at hok
          obtain ⟨hv, hs', ho'⟩ := hok
          subst hs'
          refine ⟨VOkS_refl hs, ?_⟩
          have := gen_num_ok (v := v) (by rw [heq, ← hv])
          exact numOK_refsOK this false _
        · simp at hok
      -- ptr
      · intro e he
        simp only [gen_value, hty] at he
        split at he
        · exact ((ihP _ _ _ _ _ hs hlen).1 : _) e he
        · rename_i hdep
          simp only [Except.error.injEq] at he
          subst he
          exact Or.inr ⟨Or.inl rfl, fun hw => hdep (hw.1 _ _ _ _ hty)⟩
      · intro v s' o' hok
        simp only [gen_value, hty] at hok
        split at hok
        · exact (ihP _ _ _ _ _ hs hlen).2 v s' o' hok
        · simp at hok
      -- slice
      · intro e he
        simp only [gen_value, hty] at he
        exact (ihSl _ _ _ _ _ _ hs hlen).1 e he
      · intro v s' o' hok
        simp only [gen_value, hty] at hok
        exact (ihSl _ _ _ _ _ _ hs hlen).2 v s' o' hok
      -- str
      · intro e he
        simp only [gen_value, hty] at he
        exact Or.inl (gen_str_err he)
      · intro v s' o' hok
        simp only [gen_value, hty] at hok
        obtain ⟨hss, p, hv⟩ := gen_str_ok hok
        subst hss hv
        exact ⟨VOkS_refl hs, rfl⟩
      -- struct
      · intro e he
        simp only [gen_value, hty] at he
        exact (ihSt _ _ _ _ hs hlen).1 e he
      · intro v s' o' hok
        simp only [gen_value, hty] at hok
        exact (ihSt _ _ _ _ hs hlen).2 v s' o' hok
      -- union
      · intro e he
        simp only [gen_value, hty] at he
        rcases (ihU _ _ _ _ hs hlen).1 e he with hout | ⟨he1, hf⟩
        · exact hout
        · subst he1
          exact Or.inr ⟨Or.inr (Or.inr rfl), fun hw => hw.2.2 _ _ hty hf⟩
      · intro v s' o' hok
        simp only [gen_value, hty] at hok
        exact (ihU _ _ _ _ hs hlen).2 v s' o' hok
      -- flag
      · intro e he
        simp only [gen_value, hty] at he
        split at he
        · simp at he
        · rename_i heq
          simp only [Except.error.injEq] at he
          subst he
          rcases gen_flag_err heq with ⟨hef, hfl⟩ | hb
          · subst hef
            exact Or.inr ⟨Or.inr (Or.inl rfl), fun hw => hw.2.1 _ _ hty hfl⟩
          · exact Or.inl hb
      · intro v s' o' hok
        simp only [gen_value, hty] at hok
        split at hok
        · rename_i heq
          simp only [Except.ok.injEq, Prod.mk.injEq] at hok
          obtain ⟨hv, hs', ho'⟩ := hok
          subst hs'
          refine ⟨VOkS_refl hs, ?_⟩
          obtain ⟨nv, hnv⟩ := gen_flag_num heq
          rw [← hv, hnv]
          rfl
        · simp at hok
      -- alias
      · intro e he
        simp only [gen_value, hty] at he
        exact (ihA _ _ _ _ _ hs hlen).1 e he
      · intro v s' o' hok
        simp only [gen_value, hty] at hok
        exact (ihA _ _ _ _ _ hs hlen).2 v s' o' hok
      -- res
      · intro e he
        simp only [gen_value, hty] at he
        exact (ihR _ _ _ _ _ hs hlen).1 e he
      · intro v s' o' hok
        simp only [gen_value, hty] at hok
        exact (ihR _ _ _ _ _ hs hlen).2 v s' o' hok
      -- len
      · intro e he
        simp [gen_value, hty] at he
      · intro v s' o' hok
        simp only [gen_value, hty, Except.ok.injEq, Prod.mk.injEq] at hok
        obtain ⟨hv, hs', ho'⟩ := hok
        subst hs' hv
        exact ⟨VOkS_refl hs, rfl⟩
    -- gen_alias
    · intro tid uid t s o hs hlen
      constructor
      · intro e he
        simp only [gen_alias] at he
        by_cases hir : t.is_res tid = true
        · rw [if_pos hir] at he
          cases hres : s.res tid with
          | some res =>
            rw [hres] at he
            simp only at he
            cases hcho : chooseL res o with
            | ok p => rw [hcho] at he; simp at he
            | error er =>
              rw [hcho] at he
              simp only [Except.error.injEq] at he
              subst he
              exact Or.inl (Or.inr (Or.inr (Or.inl (chooseL_err hcho).1)))
          | none =>
            rw [hres] at he
            simp only at he
            exact (ihV _ _ _ _ hs hlen).1 e he
        · rw [if_neg hir] at he
          exact (ihV _ _ _ _ hs hlen).1 e he
      · intro v s' o' hok
        simp only [gen_alias] at hok
        by_cases hir : t.is_res tid = true
        · rw [if_pos hir] at hok
          cases hres : s.res tid with
          | some res =>
            rw [hres] at hok
            simp only at hok
            cases hcho : chooseL res o with
            | ok p =>
              obtain ⟨pa, po⟩ := p
              rw [hcho] at hok
              simp only [Except.ok.injEq, Prod.mk.injEq] at hok
              obtain ⟨hv, hs', ho'⟩ := hok
              subst hs'
              refine ⟨VOkS_refl hs, ?_⟩
              rw [← hv]
              refine refsOK_ref ?_
              have hmem := chooseL_mem hcho
              have := (hs tid res hres).2 _ hmem
              omega
            | error er => rw [hcho] at hok; simp at hok
          | none =>
            rw [hres] at hok
            simp only at hok
            exact (ihV _ _ _ _ hs hlen).2 v s' o' hok
        · rw [if_neg hir] at hok
          exact (ihV _ _ _ _ hs hlen).2 v s' o' hok
    -- gen_res
    · intro rtid tid t s o hs hlen
      constructor
      · intro e he
        simp only [gen_res] at he
        cases hres : s.res rtid with
        | some res =>
          rw [hres] at he
          simp only at he
          by_cases hemp : res.isEmpty = true
          · exact absurd (List.isEmpty_iff.mp hemp) (hs rtid res hres).1
          · rw [if_neg hemp] at he
            cases hcho : chooseL res o with
            | ok p => rw [hcho] at he; simp at he
            | error er =>
              rw [hcho] at he
              simp only [Except.error.injEq] at he
              subst he
              exact Or.inl (Or.inr (Or.inr (Or.inl (chooseL_err hcho).1)))
        | none =>
          rw [hres] at he
          simp only at he
          exact (ihV _ _ _ _ hs hlen).1 e he
      · intro v s' o' hok
        simp only [gen_res] at hok
        cases hres : s.res rtid with
        | some res =>
          rw [hres] at hok
          simp only at hok
          by_cases hemp : res.isEmpty = true
          · rw [if_pos hemp] at hok; simp at hok
          · rw [if_neg hemp] at hok
            cases hcho : chooseL res o with
            | ok p =>
              obtain ⟨pa, po⟩ := p
              rw [hcho] at hok
              simp only [Except.ok.injEq, Prod.mk.injEq] at hok
              obtain ⟨hv, hs', ho'⟩ := hok
              subst hs'
              refine ⟨VOkS_refl hs, ?_⟩
              rw [← hv]
              refine refsOK_ref ?_
              have hmem := chooseL_mem hcho
              have := (hs rtid res hres).2 _ hmem
              omega
            | error er => rw [hcho] at hok; simp at hok
        | none =>
          rw [hres] at hok
          simp only at hok
          exact (ihV _ _ _ _ hs hlen).2 v s' o' hok
    -- gen_ptr
    · intro dir tid t s o hs hlen
      constructor
      · intro e he
        simp only [gen_ptr] at he
        split at he
        · simp at he
        · exact (ihV _ _ _ _ hs hlen).1 e he
      · intro v s' o' hok
        simp only [gen_ptr] at hok
        split at hok
        · split at hok
          · rename_i hres
            simp only [Except.ok.injEq, Prod.mk.injEq] at hok
            obtain ⟨hv, hs', ho'⟩ := hok
            subst hs' hv
            exact ⟨⟨rfl, rfl, rfl, ResOK_record_res hs hlen tid⟩,
              default_val_refsOK false _ tid t⟩
          · simp only [Except.ok.injEq, Prod.mk.injEq] at hok
            obtain ⟨hv, hs', ho'⟩ := hok
            subst hs' hv
            exact ⟨VOkS_refl hs, default_val_refsOK false _ tid t⟩
        · exact (ihV _ _ _ _ hs hlen).2 v s' o' hok
    -- gen_union
    · intro fields t s o hs hlen
      constructor
      · intro e he
        simp only [gen_union] at he
        split at he
        · rename_i hemp
          simp only [Except.error.injEq] at he
          exact Or.inr ⟨he.symm, List.isEmpty_iff.mp hemp⟩
        · split at he
          · rename_i heq
            simp only [Except.error.injEq] at he
            subst he
            exact Or.inl (Or.inl (Or.inr (Or.inl (genRange_err heq).1)))
          · split at he
            · simp only [Except.error.injEq] at he
              subst he
              exact Or.inl (Or.inl (Or.inr (Or.inr (Or.inr rfl))))
            · split at he
              · simp at he
              · rename_i heq
                simp only [Except.error.injEq] at he
                subst he
                exact Or.inl ((ihV _ _ _ _ hs hlen).1 _ heq)
      · intro v s' o' hok
        simp only [gen_union] at hok
        split at hok
        · simp at hok
        · split at hok
          · simp at hok
          · split at hok
            · simp at hok
            · split at hok
              · rename_i heq
                simp only [Except.ok.injEq, Prod.mk.injEq] at hok
                obtain ⟨hv, hs', ho'⟩ := hok
                subst hs' hv
                obtain ⟨hws, hrefs⟩ := (ihV _ _ _ _ hs hlen).2 _ _ _ heq
                exact ⟨hws, by rw [refsOK_opt]; exact hrefs⟩
              · simp at hok
    -- gen_struct
    · intro fields t s o hs hlen
      constructor
      · intro e he
        simp only [gen_struct] at he
        split at he
        · simp at he
        · rename_i heq
          simp only [Except.error.injEq] at he
          subst he
          exact (ihVs _ _ _ _ hs hlen).1 _ heq
      · intro v s' o' hok
        simp only [gen_struct] at hok
        split at hok
        · rename_i heq
          simp only [Except.ok.injEq, Prod.mk.injEq] at hok
          obtain ⟨hv, hs', ho'⟩ := hok
          subst hs' hv
          obtain ⟨hws, hrefs⟩ := (ihVs _ _ _ _ hs hlen).2 _ _ _ heq
          exact ⟨hws, by rw [refsOK_group]; exact hrefs⟩
        · simp at hok
    -- gen_values
    · intro fields t s o hs hlen
      constructor
      · intro e he
        simp only [gen_values] at he
        split at he
        · simp at he
        · split at he
          · rename_i heq
            simp only [Except.error.injEq] at he
            subst he
            exact (ihV _ _ _ _ hs hlen).1 _ heq
          · rename_i field rest v₁ s₁ o₁ heq1
            split at he
            · rename_i heq2
              simp only [Except.error.injEq] at he
              subst he
              obtain ⟨hws1, -⟩ := (ihV _ _ _ _ hs hlen).2 _ _ _ heq1
              have hres1 : ResOK s₁ := hws1.2.2.2
              have hlen1 : 1 ≤ s₁.prog.len := by
                have := hws1.1
                unfold Prog.len
                rw [this]
                exact hlen
              exact (ihVs _ _ _ _ hres1 hlen1).1 _ heq2
            · simp at he
      · intro vs s' o' hok
        simp only [gen_values] at hok
        split at hok
        · simp only [Except.ok.injEq, Prod.mk.injEq] at hok
          obtain ⟨hv, hs', ho'⟩ := hok
          subst hs' hv
          exact ⟨VOkS_refl hs, rfl⟩
        · split at hok
          · simp at hok
          · rename_i field rest v₁ s₁ o₁ heq1
            split at hok
            · simp at hok
            · rename_i vs₂ s₂ o₂ heq2
              simp only [Except.ok.injEq, Prod.mk.injEq] at hok
              obtain ⟨hv, hs', ho'⟩ := hok
              subst hs' hv
              obtain ⟨hws1, hr1⟩ := (ihV _ _ _ _ hs hlen).2 _ _ _ heq1
              have hres1 : ResOK s₁ := hws1.2.2.2
              have hlen1 : 1 ≤ s₁.prog.len := by
                have := hws1.1
                unfold Prog.len
                rw [this]
                exact hlen
              obtain ⟨hws2, hr2⟩ := (ihVs _ _ _ _ hres1 hlen1).2 _ _ _ heq2
              refine ⟨VOkS_trans hws1 hws2, ?_⟩
              rw [refsOKList_cons, Bool.and_eq_true]
              refine ⟨hr1, ?_⟩
              have hpe : s₁.prog = s.prog := hws1.1
              rw [← hpe]
              exact hr2
    -- gen_slice
    · intro tid lo hi t s o hs hlen
      constructor
      · intro e he
        simp only [gen_slice] at he
        split at he
        · rename_i heq
          simp only [Except.error.injEq] at he
          subst he
          exact Or.inl (gen_slice_len_err heq)
        · split at he
          · simp at he
          · rename_i heq
            simp only [Except.error.injEq] at he
            subst he
            exact (ihEl _ _ _ _ _ hs hlen).1 _ heq
      · intro v s' o' hok
        simp only [gen_slice] at hok
        split at hok
        · simp at hok
        · split at hok
          · rename_i heq
            simp only [Except.ok.injEq, Prod.mk.injEq] at hok
            obtain ⟨hv, hs', ho'⟩ := hok
            subst hs' hv
            obtain ⟨hws, hrefs⟩ := (ihEl _ _ _ _ _ hs hlen).2 _ _ _ heq
            exact ⟨hws, by rw [refsOK_group]; exact hrefs⟩
          · simp at hok
    -- gen_elems
    · intro tid len t s o hs hlen
      constructor
      · intro e he
        simp only [gen_elems] at he
        split at he
        · simp at he
        · split at he
          · rename_i heq
            simp only [Except.error.injEq] at he
            subst he
            exact (ihV _ _ _ _ hs hlen).1 _ heq
          · rename_i len₁ v₁ s₁ o₁ heq1
            split at he
            · rename_i heq2
              simp only [Except.error.injEq] at he
              subst he
              obtain ⟨hws1, -⟩ := (ihV _ _ _ _ hs hlen).2 _ _ _ heq1
              have hres1 : ResOK s₁ := hws1.2.2.2
              have hlen1 : 1 ≤ s₁.prog.len := by
                have := hws1.1
                unfold Prog.len
                rw [this]
                exact hlen
              exact (ihEl _ _ _ _ _ hres1 hlen1).1 _ heq2
            · simp at he
      · intro vs s' o' hok
        simp only [gen_elems] at hok
        split at hok
        · simp only [Except.ok.injEq, Prod.mk.injEq] at hok
          obtain ⟨hv, hs', ho'⟩ := hok
          subst hs' hv
          exact ⟨VOkS_refl hs, rfl⟩
        · split at hok
          · simp at hok
          · rename_i len₁ v₁ s₁ o₁ heq1
            split at hok
            · simp at hok
            · rename_i vs₂ s₂ o₂ heq2
              simp only [Except.ok.injEq, Prod.mk.injEq] at hok
              obtain ⟨hv, hs', ho'⟩ := hok
              subst hs' hv
              obtain ⟨hws1, hr1⟩ := (ihV _ _ _ _ hs hlen).2 _ _ _ heq1
              have hres1 : ResOK s₁ := hws1.2.2.2
              have hlen1 : 1 ≤ s₁.prog.len := by
                have := hws1.1
                unfold Prog.len
                rw [this]
                exact hlen
              obtain ⟨hws2, hr2⟩ := (ihEl _ _ _ _ _ hres1 hlen1).2 _ _ _ heq2
              refine ⟨VOkS_trans hws1 hws2, ?_⟩
              rw [refsOKList_cons, Bool.and_eq_true]
              refine ⟨hr1, ?_⟩
              have hpe : s₁.prog = s.prog := hws1.1
              rw [← hpe]
              exact hr2

/-! ### Call-layer lemmas -/

theorem callsFrom_append (strict : Bool) (l : List Call) (c : Call) :
    ∀ i, callsFrom strict i (l ++ [c]) =
      (callsFrom strict i l && Call.refsOK strict (i + l.length) c) := by
  induction l with
  | nil => intro i; simp [callsFrom]
  | cons d rest ih =>
    intro i
    have harith : i + 1 + rest.length = i + (rest.length + 1) := by omega
    simp only [List.cons_append, callsFrom, List.length_cons]
    rw [show rest.append [c] = rest ++ [c] from rfl, ih (i + 1), Bool.and_assoc, harith]

theorem callsFrom_modify :
    ∀ (l : List Call) (i k : Nat) (f : Call → Call),
    callsFrom false i l = true →
    (∀ c, Call.refsOK false (i + k) c = true → Call.refsOK false (i + k) (f c) = true) →
    callsFrom false i (List.modify f k l) = true := by
  intro l
  induction l with
  | nil =>
    intro i k f h hf
    cases k <;> exact h
  | cons c rest ih =>
    intro i k f h hf
    simp only [callsFrom, Bool.and_eq_true] at h
    obtain ⟨h1, h2⟩ := h
    cases k with
    | zero =>
      show callsFrom false i (f c :: rest) = true
      simp only [callsFrom, Bool.and_eq_true]
      refine ⟨?_, h2⟩
      have := hf c (by simpa using h1)
      simpa using this
    | succ k =>
      show callsFrom false i (c :: List.modify f k rest) = true
      simp only [callsFrom, Bool.and_eq_true]
      refine ⟨h1, ih (i + 1) k f h2 ?_⟩
      intro c' hc'
      have harith : i + 1 + k = i + (k + 1) := by omega
      rw [harith]
      exact hf c' (by rw [← harith]; exact hc')

theorem Call_refsOK_new (strict : Bool) (i fid : Nat) :
    Call.refsOK strict i (Call.new fid) = true := rfl

theorem Call_refsOK_push {strict : Bool} {i : Nat} {c : Call} {a : Arg}
    (h1 : Call.refsOK strict i c = true) (h2 : Value.refsOK strict i a.val = true) :
    Call.refsOK strict i { c with args := c.args ++ [a] } = true := by
  unfold Call.refsOK at h1 ⊢
  simp only [Bool.and_eq_true, List.all_eq_true] at h1 ⊢
  obtain ⟨ha, hr⟩ := h1
  refine ⟨?_, hr⟩
  intro x hx
  rcases List.mem_append.mp hx with hx | hx
  · exact ha x hx
  · simp only [List.mem_singleton] at hx
    subst hx
    exact h2

theorem Call_refsOK_ret {strict : Bool} {i : Nat} {c : Call} {a : Arg}
    (h1 : Call.refsOK strict i c = true) (h2 : Value.refsOK strict i a.val = true) :
    Call.refsOK strict i { c with ret := Option.some a } = true := by
  unfold Call.refsOK at h1 ⊢
  simp only [Bool.and_eq_true] at h1 ⊢
  exact ⟨h1.1, by simpa using h2⟩

theorem ResOK_of_eq {s s' : State} (hs : ResOK s) (hres : s'.res = s.res)
    (hlen : s.prog.len ≤ s'.prog.len) : ResOK s' := by
  intro tid l hl
  rw [hres] at hl
  obtain ⟨h1, h2⟩ := hs tid l hl
  exact ⟨h1, fun ai hai => lt_of_lt_of_le (h2 ai hai) hlen⟩

theorem push_arg_len (s : State) (ci : Nat) (a : Arg) :
    (push_arg s ci a).prog.calls.length = s.prog.calls.length := by
  simp [push_arg, List.length_modify]

theorem set_ret_len (s : State) (ci : Nat) (a : Arg) :
    (set_ret s ci a).prog.calls.length = s.prog.calls.length := by
  simp [set_ret, List.length_modify]

theorem gen_args_out (fuel : Nat) (t : Target) :
    ∀ (params : List Field) (s : State) (o : Oracle) (i : Nat),
    ResOK s → callsFrom false 0 s.prog.calls = true → 1 ≤ s.prog.len →
    (∀ e, gen_args fuel t (s.prog.calls.length - 1) i params s o = .error e →
      errOut t e) ∧
    (∀ s' o', gen_args fuel t (s.prog.calls.length - 1) i params s o = .ok (s', o') →
      ResOK s' ∧ callsFrom false 0 s'.prog.calls = true ∧
      s'.prog.calls.length = s.prog.calls.length ∧ s'.conf = s.conf) := by
  intro params
  induction params with
  | nil =>
    intro s o i hs hc hlen
    constructor
    · intro e he
      simp [gen_args] at he
    · intro s' o' hok
      simp only [gen_args, Except.ok.injEq, Prod.mk.injEq] at hok
      obtain ⟨h1, h2⟩ := hok
      subst h1
      exact ⟨hs, hc, rfl, rfl⟩
  | cons p rest ih =>
    intro s o i hs hc hlen
    have hs₀ : ResOK { s with argi := i } := hs
    have hlen₀ : 1 ≤ ({ s with argi := i } : State).prog.len := hlen
    have hmast := (valueInv fuel).1 p.tid t { s with argi := i } o hs₀ hlen₀
    constructor
    · intro e he
      simp only [gen_args] at he
      split at he
      · rename_i heq
        simp only [Except.error.injEq] at he
        subst he
        exact hmast.1 _ heq
      · rename_i val s₁ o₁ heq
        obtain ⟨hws, hrefs⟩ := hmast.2 _ _ _ heq
        have hp1 : s₁.prog = s.prog := hws.1
        have hres1 : ResOK s₁ := hws.2.2.2
        set s₂ := push_arg s₁ (s.prog.calls.length - 1) ⟨p.tid, val⟩ with hs₂def
        have hlen2 : s₂.prog.calls.length = s.prog.calls.length := by
          rw [hs₂def, push_arg_len, hp1]
        have hres2 : ResOK s₂ := by
          refine ResOK_of_eq hres1 rfl ?_
          show s₁.prog.len ≤ s₂.prog.len
          unfold Prog.len
          rw [hlen2, hp1]
        have hc2 : callsFrom false 0 s₂.prog.calls = true := by
          show callsFrom false 0
            (List.modify (fun c => { c with args := c.args ++ [⟨p.tid, val⟩] })
              (s.prog.calls.length - 1) s₁.prog.calls) = true
          refine callsFrom_modify _ 0 _ _ (by rw [hp1]; exact hc) ?_
          intro c hcok
          refine Call_refsOK_push hcok ?_
          have : ({ s with argi := i } : State).prog.len - 1 =
              0 + (s.prog.calls.length - 1) := by
            show s.prog.len - 1 = 0 + (s.prog.calls.length - 1)
            unfold Prog.len
            omega
          rw [← this]
          exact hrefs
        have hlen2' : 1 ≤ s₂.prog.len := by
          show 1 ≤ s₂.prog.calls.length
          rw [hlen2]
          exact hlen
        have ih' := ih s₂ o₁ (i + 1) hres2 hc2 hlen2'
        rw [hlen2] at ih'
        exact ih'.1 e he
    · intro s' o' hok
      simp only [gen_args] at hok
      split at hok
      · simp at hok
      · rename_i val s₁ o₁ heq
        obtain ⟨hws, hrefs⟩ := hmast.2 _ _ _ heq
        have hp1 : s₁.prog = s.prog := hws.1
        have hres1 : ResOK s₁ := hws.2.2.2
        set s₂ := push_arg s₁ (s.prog.calls.length - 1) ⟨p.tid, val⟩ with hs₂def
        have hlen2 : s₂.prog.calls.length = s.prog.calls.length := by
          rw [hs₂def, push_arg_len, hp1]
        have hres2 : ResOK s₂ := by
          refine ResOK_of_eq hres1 rfl ?_
          show s₁.prog.len ≤ s₂.prog.len
          unfold Prog.len
          rw [hlen2, hp1]
        have hc2 : callsFrom false 0 s₂.prog.calls = true := by
          show callsFrom false 0
            (List.modify (fun c => { c with args := c.args ++ [⟨p.tid, val⟩] })
              (s.prog.calls.length - 1) s₁.prog.calls) = true
          refine callsFrom_modify _ 0 _ _ (by rw [hp1]; exact hc) ?_
          intro c hcok
          refine Call_refsOK_push hcok ?_
          have : ({ s with argi := i } : State).prog.len - 1 =
              0 + (s.prog.calls.length - 1) := by
            show s.prog.len - 1 = 0 + (s.prog.calls.length - 1)
            unfold Prog.len
            omega
          rw [← this]
          exact hrefs
        have hlen2' : 1 ≤ s₂.prog.len := by
          show 1 ≤ s₂.prog.calls.length
          rw [hlen2]
          exact hlen
        have ih' := ih s₂ o₁ (i + 1) hres2 hc2 hlen2'
        rw [hlen2] at ih'
        obtain ⟨hrA, hrB, hrC, hrD⟩ := ih'.2 s' o' hok
        refine ⟨hrA, hrB, hrC, ?_⟩
        rw [hrD]
        show s₁.conf = s.conf
        exact hws.2.1

theorem gen_call_out (fuel : Nat) (t : Target) (f : FnInfo) (s : State) (o : Oracle)
    (hs : ResOK s) (hc : callsFrom false 0 s.prog.calls = true) :
    (∀ e, gen_call fuel t f s o = .error e → errOut t e) ∧
    (∀ s' o', gen_call fuel t f s o = .ok (s', o') →
      ResOK s' ∧ callsFrom false 0 s'.prog.calls = true ∧
      s'.prog.calls.length = s.prog.calls.length + 1 ∧ s'.conf = s.conf) := by
  have hci : (s.prog.calls ++ [Call.new f.id]).length - 1 = s.prog.calls.length := by
    simp
  have hsA : ResOK (State.mk s.res s.strs
      (Prog.mk s.prog.gid (s.prog.calls ++ [Call.new f.id])) s.conf 0) := by
    refine ResOK_of_eq hs rfl ?_
    unfold Prog.len
    simp
  have hcA : callsFrom false 0 (s.prog.calls ++ [Call.new f.id]) = true := by
    rw [callsFrom_append]
    simp only [Bool.and_eq_true]
    exact ⟨hc, Call_refsOK_new false _ _⟩
  have hlenA : (1 : Nat) ≤ (s.prog.calls ++ [Call.new f.id]).length := by simp
  have hga := gen_args_out fuel t f.params
    (State.mk s.res s.strs
      (Prog.mk s.prog.gid (s.prog.calls ++ [Call.new f.id])) s.conf 0) o 0 hsA hcA hlenA
  dsimp only at hga
  rw [hci] at hga
  constructor
  · intro e he
    simp only [gen_call, State.add_call] at he
    rw [hci] at he
    split at he
    · rename_i heq
      split at heq
      · simp only [Except.error.injEq] at he
        subst he
        exact hga.1 _ heq
      · simp at heq
    · rename_i s₁ o₁ heq
      split at he
      · split at he
        · simp at he
        · simp at he
      · simp at he
  · intro s' o' hok
    simp only [gen_call, State.add_call] at hok
    rw [hci] at hok
    split at hok
    · simp at hok
    · rename_i s₁ o₁ heq
      have hfacts : ResOK s₁ ∧ callsFrom false 0 s₁.prog.calls = true ∧
          s₁.prog.calls.length = s.prog.calls.length + 1 ∧ s₁.conf = s.conf := by
        split at heq
        · obtain ⟨h1, h2, h3, h4⟩ := hga.2 _ _ heq
          refine ⟨h1, h2, ?_, h4⟩
          rw [h3]
          simp
        · simp only [Except.ok.injEq, Prod.mk.injEq] at heq
          obtain ⟨h1, -⟩ := heq
          subst h1
          exact ⟨hsA, hcA, by simp, rfl⟩
      obtain ⟨hres1, hc1, hlen1, hconf1⟩ := hfacts
      split at hok
      · split at hok
        · rename_i tid htid hisres
          simp only [Except.ok.injEq, Prod.mk.injEq] at hok
          obtain ⟨h1, -⟩ := hok
          subst h1
          have hres2 : ResOK (State.mk s₁.res s₁.strs s₁.prog s₁.conf
              (args_len s₁ s.prog.calls.length)) := hres1
          have hlen2 : (1 : Nat) ≤ (State.mk s₁.res s₁.strs s₁.prog s₁.conf
              (args_len s₁ s.prog.calls.length)).prog.len := by
            show 1 ≤ s₁.prog.calls.length
            omega
          have hres3 := ResOK_record_res hres2 hlen2 tid
          constructor
          · refine ResOK_of_eq hres3 rfl ?_
            show _ ≤ (set_ret _ _ _).prog.calls.length
            rw [set_ret_len]
            exact Nat.le_refl _
          constructor
          · show callsFrom false 0 (List.modify _ s.prog.calls.length _) = true
            refine callsFrom_modify _ 0 _ _ ?_ ?_
            · show callsFrom false 0 s₁.prog.calls = true
              exact hc1
            · intro c hcok
              exact Call_refsOK_ret hcok rfl
          constructor
          · rw [set_ret_len]
            show s₁.prog.calls.length = _
            exact hlen1
          · show s₁.conf = s.conf
            exact hconf1
        · simp only [Except.ok.injEq, Prod.mk.injEq] at hok
          obtain ⟨h1, -⟩ := hok
          subst h1
          exact ⟨hres1, hc1, hlen1, hconf1⟩
      · simp only [Except.ok.injEq, Prod.mk.injEq] at hok
        obtain ⟨h1, -⟩ := hok
        subst h1
        exact ⟨hres1, hc1, hlen1, hconf1⟩

theorem gen_calls_out (fuel : Nat) (t : Target) (g : Group) :
    ∀ (seq : List Nat) (s : State) (o : Oracle),
    ResOK s → callsFrom false 0 s.prog.calls = true →
    (∀ e, gen_calls fuel t g seq s o = .error e → errOut t e) ∧
    (∀ s' o', gen_calls fuel t g seq s o = .ok (s', o') →
      ResOK s' ∧ callsFrom false 0 s'.prog.calls = true) := by
  intro seq
  induction seq with
  | nil =>
    intro s o hs hc
    constructor
    · intro e he
      simp [gen_calls] at he
    · intro s' o' hok
      simp only [gen_calls, Except.ok.injEq, Prod.mk.injEq] at hok
      obtain ⟨h1, -⟩ := hok
      subst h1
      exact ⟨hs, hc⟩
  | cons i rest ih =>
    intro s o hs hc
    constructor
    · intro e he
      simp only [gen_calls] at he
      split at he
      · simp only [Except.error.injEq] at he
        subst he
        exact Or.inl (Or.inr (Or.inr (Or.inr rfl)))
      · rename_i fi hfi
        split at he
        · rename_i heq
          simp only [Except.error.injEq] at he
          subst he
          exact (gen_call_out fuel t fi s o hs hc).1 _ heq
        · rename_i s₁ o₁ heq
          obtain ⟨h1, h2, -, -⟩ := (gen_call_out fuel t fi s o hs hc).2 _ _ heq
          exact (ih s₁ o₁ h1 h2).1 e he
    · intro s' o' hok
      simp only [gen_calls] at hok
      split at hok
      · simp at hok
      · rename_i fi hfi
        split at hok
        · simp at hok
        · rename_i s₁ o₁ heq
          obtain ⟨h1, h2, -, -⟩ := (gen_call_out fuel t fi s o hs hc).2 _ _ heq
          exact (ih s₁ o₁ h1 h2).2 s' o' hok

/-! ### Sequencer lemmas -/

theorem push_deps_flip_deps (j : Nat) (set : Nat → Bool) (deps : List Nat)
    (o : Oracle) :
    (push_deps_flip j set deps o).2.1 = deps ∨
    (push_deps_flip j set deps o).2.1 = deps ++ [j] := by
  unfold push_deps_flip
  split
  · split
    split
    · exact Or.inr rfl
    · exact Or.inl rfl
  · split
    split
    · exact Or.inr rfl
    · exact Or.inl rfl

theorem push_deps_cols_deps (rs : RTable) (index : Nat) :
    ∀ (js : List Nat) (set : Nat → Bool) (deps : List Nat) (o : Oracle),
    (push_deps_cols rs index js set deps o).2.1.length ≤ deps.length + js.length ∧
    (∀ x, x ∈ (push_deps_cols rs index js set deps o).2.1 → x ∈ deps ∨ x ∈ js) ∧
    deps.length ≤ (push_deps_cols rs index js set deps o).2.1.length := by
  intro js
  induction js with
  | nil =>
    intro set deps o
    exact ⟨Nat.le_add_right _ _, fun x hx => Or.inl hx, Nat.le_refl _⟩
  | cons j js ih =>
    intro set deps o
    simp only [push_deps_cols]
    rcases hr : rs.rel index j with - | - | -
    · rw [if_neg (by decide), if_neg (by decide)]
      obtain ⟨ihlen, ihmem, ihlo⟩ := ih set deps o
      refine ⟨by simpa using Nat.le_succ_of_le ihlen, ?_, ihlo⟩
      intro x hx
      rcases ihmem x hx with hx | hx
      · exact Or.inl hx
      · exact Or.inr (List.mem_cons_of_mem _ hx)
    · rw [if_pos rfl, if_neg (by decide)]
      rcases push_deps_flip_deps j set deps o with hd | hd <;> rw [hd]
      · obtain ⟨ihlen, ihmem, ihlo⟩ := ih (push_deps_flip j set deps o).1 deps (push_deps_flip j set deps o).2.2
        refine ⟨by simpa using Nat.le_succ_of_le ihlen, ?_, ihlo⟩
        intro x hx
        rcases ihmem x hx with hx | hx
        · exact Or.inl hx
        · exact Or.inr (List.mem_cons_of_mem _ hx)
      · obtain ⟨ihlen, ihmem, ihlo⟩ := ih (push_deps_flip j set deps o).1 (deps ++ [j]) (push_deps_flip j set deps o).2.2
        have hlap : (deps ++ [j]).length = deps.length + 1 := by simp
        refine ⟨by simp only [List.length_cons]; omega, ?_, by omega⟩
        intro x hx
        rcases ihmem x hx with hx | hx
        · rcases List.mem_append.mp hx with hx | hx
          · exact Or.inl hx
          · simp only [List.mem_singleton] at hx
            exact Or.inr (by simp [hx])
        · exact Or.inr (List.mem_cons_of_mem _ hx)
    · rw [if_pos rfl, if_neg (by decide)]
      dsimp only
      rcases push_deps_flip_deps j set deps o with hd | hd <;> rw [hd]
      · obtain ⟨ihlen, ihmem, ihlo⟩ := ih (push_deps_flip j set deps o).1 deps (push_deps_flip j set deps o).2.2
        refine ⟨by simpa using Nat.le_succ_of_le ihlen, ?_, ihlo⟩
        intro x hx
        rcases ihmem x hx with hx | hx
        · exact Or.inl hx
        · exact Or.inr (List.mem_cons_of_mem _ hx)
      · obtain ⟨ihlen, ihmem, ihlo⟩ := ih (push_deps_flip j set deps o).1 (deps ++ [j]) (push_deps_flip j set deps o).2.2
        have hlap : (deps ++ [j]).length = deps.length + 1 := by simp
        refine ⟨by simp only [List.length_cons]; omega, ?_, by omega⟩
        intro x hx
        rcases ihmem x hx with hx | hx
        · rcases List.mem_append.mp hx with hx | hx
          · exact Or.inl hx
          · simp only [List.mem_singleton] at hx
            exact Or.inr (by simp [hx])
        · exact Or.inr (List.mem_cons_of_mem _ hx)

theorem push_deps_out (rs : RTable) (conf : Config) :
    ∀ (fuel : Nat) (set : Nat → Bool) (seq : List Nat) (i : Nat) (o : Oracle),
    (∀ e, push_deps fuel rs conf set seq i o = .error e → e = .fuelOut) ∧
    (∀ set' seq' o', push_deps fuel rs conf set seq i o = .ok (set', seq', o') →
      seq.length ≤ seq'.length ∧
      seq'.length ≤ max seq.length (conf.prog_max_len - 1 + rs.n) ∧
      (∀ x, x ∈ seq' → x ∈ seq ∨ x < rs.n)) := by
  intro fuel
  induction fuel with
  | zero =>
    intro set seq i o
    constructor
    · intro e he
      simp only [push_deps, Except.error.injEq] at he
      exact he.symm
    · intro set' seq' o' hok
      simp [push_deps] at hok
  | succ fuel ih =>
    intro set seq i o
    constructor
    · intro e he
      simp only [push_deps] at he
      split at he
      · simp at he
      · split at he
        · simp at he
        · exact (ih _ _ _ _).1 e he
    · intro set' seq' o' hok
      simp only [push_deps] at hok
      split at hok
      · simp only [Except.ok.injEq, Prod.mk.injEq] at hok
        obtain ⟨-, h2, -⟩ := hok
        subst h2
        exact ⟨Nat.le_refl _, Nat.le_max_left _ _, fun x hx => Or.inl hx⟩
      · split at hok
        · simp only [Except.ok.injEq, Prod.mk.injEq] at hok
          obtain ⟨-, h2, -⟩ := hok
          subst h2
          exact ⟨Nat.le_refl _, Nat.le_max_left _ _, fun x hx => Or.inl hx⟩
        · rename_i hige hmax
          have hi : i < seq.length := Nat.lt_of_not_le hige
          have hlt : seq.length < conf.prog_max_len := Nat.lt_of_not_le hmax
          obtain ⟨pclen, pcmem, -⟩ := push_deps_cols_deps rs
            (seq.get ⟨i, hi⟩) (List.range rs.n) set [] o
          obtain ⟨ih1, ih2, ih3⟩ := (ih _ _ _ _).2 set' seq' o' hok
          have happlen : (seq ++ (push_deps_cols rs (seq.get ⟨i, hi⟩)
              (List.range rs.n) set [] o).2.1).length ≤
              seq.length + rs.n := by
            simp only [List.length_append]
            have := pclen
            simp only [List.length_nil, List.length_range] at this
            omega
          have happge : seq.length ≤ (seq ++ (push_deps_cols rs (seq.get ⟨i, hi⟩)
              (List.range rs.n) set [] o).2.1).length := by
            simp
          refine ⟨by omega, by omega, ?_⟩
          intro x hx
          rcases ih3 x hx with hx | hx
          · rcases List.mem_append.mp hx with hx | hx
            · exact Or.inl hx
            · rcases pcmem x hx with hx | hx
              · simp at hx
              · exact Or.inr (List.mem_range.mp hx)
          · exact Or.inr hx

theorem choose_seq_loop_out (rs : RTable) (conf : Config) (hn : 1 ≤ rs.n) :
    ∀ (fuel : Nat) (set : Nat → Bool) (seq : List Nat) (o : Oracle),
    (∀ e, choose_seq_loop fuel rs conf set seq o = .error e → e = .fuelOut) ∧
    (∀ seq' o', choose_seq_loop fuel rs conf set seq o = .ok (seq', o') →
      seq.length < seq'.length ∧
      (seq.length ≤ conf.prog_max_len → seq'.length ≤ conf.prog_max_len + rs.n) ∧
      (∀ x, x ∈ seq' → x ∈ seq ∨ x < rs.n)) := by
  intro fuel
  induction fuel with
  | zero =>
    intro set seq o
    constructor
    · intro e he
      simp only [choose_seq_loop, Except.error.injEq] at he
      exact he.symm
    · intro seq' o' hok
      simp [choose_seq_loop] at hok
  | succ fuel ih =>
    intro set seq o
    constructor
    · intro e he
      simp only [choose_seq_loop] at he
      split at he
      · rename_i heq
        obtain ⟨-, h2⟩ := genRange_err heq
        unfold RTable.len at h2
        omega
      · rename_i idx o₂ heq
        split at he
        · rename_i heq2
          have hfo := (push_deps_out rs conf _ _ _ _ _).1 _ heq2
          simp only [Except.error.injEq] at he
          rw [← he]
          exact hfo
        · split at he
          · split at he
            · exact (ih _ _ _).1 e he
            · simp at he
          · simp at he
    · intro seq' o' hok
      simp only [choose_seq_loop] at hok
      split at hok
      · simp at hok
      · rename_i idx o₂ heq
        split at hok
        · simp at hok
        · rename_i set₁ seq₁ o₁ heq2
          have hidx : idx < rs.len := (genRange_ok heq).2
          unfold RTable.len at hidx
          obtain ⟨hpd1, hpd2, hpd3⟩ := (push_deps_out rs conf _ _ _ _ _).2 _ _ _ heq2
          have happ : (seq ++ [idx]).length = seq.length + 1 := by simp
          have hgrow : seq.length < seq₁.length := by omega
          have hmem1 : ∀ x, x ∈ seq₁ → x ∈ seq ∨ x < rs.n := by
            intro x hx
            rcases hpd3 x hx with hx | hx
            · rcases List.mem_append.mp hx with hx | hx
              · exact Or.inl hx
              · simp only [List.mem_singleton] at hx
                subst hx
                exact Or.inr hidx
            · exact Or.inr hx
          split at hok
          · rename_i hle
            split at hok
            · obtain ⟨ihg, ihb, ihm⟩ := (ih _ _ _).2 seq' o' hok
              refine ⟨by omega, fun _ => ihb hle, ?_⟩
              intro x hx
              rcases ihm x hx with hx | hx
              · exact hmem1 x hx
              · exact Or.inr hx
            · simp only [Except.ok.injEq, Prod.mk.injEq] at hok
              obtain ⟨h1, -⟩ := hok
              subst h1
              exact ⟨hgrow, fun _ => by omega, hmem1⟩
          · rename_i hgt
            simp only [Except.ok.injEq, Prod.mk.injEq] at hok
            obtain ⟨h1, -⟩ := hok
            subst h1
            refine ⟨hgrow, ?_, hmem1⟩
            intro hseq
            have h2 : seq₁.length ≤ max (seq ++ [idx]).length
                (conf.prog_max_len - 1 + rs.n) := hpd2
            omega

theorem choose_seq_ok {rs : RTable} {conf : Config} {o o' : Oracle}
    {seq : List Nat} (h : choose_seq rs conf o = .ok (seq, o')) :
    seq ≠ [] ∧ (∀ x, x ∈ seq → x < rs.n) ∧
    seq.length ≤ conf.prog_max_len + rs.n := by
  unfold choose_seq at h
  split at h
  · simp at h
  · rename_i hn0
    have hn : 1 ≤ rs.n := by
      unfold RTable.len at hn0
      omega
    obtain ⟨hg, hb, hm⟩ := (choose_seq_loop_out rs conf hn _ _ _ _).2 _ _ h
    refine ⟨?_, ?_, ?_⟩
    · intro hnil
      subst hnil
      simp at hg
    · intro x hx
      rcases hm x hx with hx | hx
      · simp at hx
      · exact hx
    · exact hb (by simp)

theorem choose_seq_err {rs : RTable} {conf : Config} {o : Oracle} {e : GenErr}
    (h : choose_seq rs conf o = .error e) : e = .emptyTable ∨ benignErr e := by
  unfold choose_seq at h
  split at h
  · simp only [Except.error.injEq] at h
    exact Or.inl h.symm
  · rename_i hn0
    have hn : 1 ≤ rs.n := by
      unfold RTable.len at hn0
      omega
    have := (choose_seq_loop_out rs conf hn _ _ _ _).1 _ h
    exact Or.inr (Or.inl this)

/-! ### Top-level lemmas -/

theorem ResOK_new (prog : Prog) (conf : Config) : ResOK (State.new prog conf) := by
  intro tid l hl
  simp [State.new] at hl

theorem errOut_excludes {t : Target} {e : GenErr} (h : errOut t e) :
    e ≠ .resEmpty ∧ e ≠ .emptyRTables ∧ e ≠ .emptyTable := by
  rcases h with (h | h | h | h) | ⟨(h | h | h), -⟩ <;> subst h <;>
    exact ⟨by decide, by decide, by decide⟩

theorem benignErr_not_listed {e : GenErr} (h : benignErr e) : ¬ listedErr e := by
  rcases h with h | h | h | h <;> subst h <;>
    · intro hl
      rcases hl with h | h | h | h <;> cases h

/-! ### Claim theorems -/

/-- C1, as stated in the spec, is false on the code: on the target `tCex`
(one operation `f(p0: ptr out R, p1: R)` with `R` resource-classified) the
out-pointer argument records `R`'s producer at position (0,0), and argument 1
of the same call then borrows it, yielding `Value.ref (0, 0)` inside call 0 —
a reference to the call containing it.  The run is fully concrete. -/
theorem c1_counterexample :
    gen 9 tCex rsOne cfgA [] = .ok progCex ∧ progCex.backwardLT = false :=
  ⟨rfl, rfl⟩

/-- C1 (amended): for every generated program, every `Value.ref`'s call
position is *at most* the position of the call containing it — references
never point forward, but a reference to an earlier argument slot of the
same call is possible (when an out-pointer resource recorded earlier in the
call is consumed later in the same call). -/
theorem c1_backward_amended (fuel : Nat) (t : Target) (rs : List (GroupId × RTable))
    (conf : Config) (o : Oracle) (p : Prog)
    (h : gen fuel t rs conf o = .ok p) : p.backwardLE = true := by
  unfold gen at h
  split at h
  · simp at h
  · split at h
    · simp at h
    · rename_i gid r o₁ heq1
      split at h
      · simp at h
      · rename_i seq o₂ heq2
        dsimp only at h
        split at h
        · simp at h
        · rename_i s₃ o₃ heq3
          simp only [Except.ok.injEq] at h
          subst h
          have h0 := gen_calls_out fuel t (t.groups gid) seq
            (State.new (Prog.new gid) conf) o₂ (ResOK_new _ _) rfl
          exact (h0.2 _ _ heq3).2

/-- C1 (amended) witness: the counterexample program itself satisfies the
amended, non-strict property. -/
theorem c1_backward_amended_witness : Prog.backwardLE progCex = true :=
  c1_backward_amended 9 tCex rsOne cfgA [] progCex rfl

/-- C2 is right about the spec's intent but the code violates it:
`State::record_str` exists yet is never invoked, so `gen_str` returns every
state unchanged (first conjunct), and in particular the concrete FileName
synthesis below leaves the pool empty after producing the fresh path
`"./AA"` (second conjunct) — the reuse branch can never fire. -/
theorem c2_pool_never_updated :
    (∀ st vals (s : State) o fuel v s' o',
      gen_str st vals s o fuel = .ok (v, s', o') → s'.strs = s.strs) ∧
    (gen_str StrType.fileName Option.none sPath [] 5 =
        .ok (Value.str "./AA", sPath, []) ∧
      sPath.strs StrType.fileName = []) := by
  refine ⟨?_, rfl, rfl⟩
  intro st vals s o fuel v s' o' h
  rw [(gen_str_ok h).1]

/-- C2 witness: the state-preservation conjunct applied to the concrete
FileName run. -/
theorem c2_pool_never_updated_witness : sPath.strs = sPath.strs :=
  c2_pool_never_updated.1 StrType.fileName Option.none sPath [] 5
    (Value.str "./AA") sPath [] rfl

/-- C3, as stated (covering all three string kinds), is false on the code:
with `str_min_len = 2`, `str_max_len = 4`, a FileName synthesis produces
`"./AA"` of length 4, outside `[2, 4)`. -/
theorem c3_counterexample :
    gen_str StrType.fileName Option.none sPath [] 5 =
      .ok (Value.str "./AA", sPath, []) ∧
    ¬ (sPath.conf.str_min_len ≤ "./AA".length ∧
        "./AA".length < sPath.conf.str_max_len) :=
  ⟨rfl, by decide⟩

/-- C3 (amended): for the generic-text and restricted-text kinds without a
fixed value set, the produced string's length lies in
`[str_min_len, str_max_len)`; the path-like kind draws each *segment* length
from that interval but the full path's length need not lie in it. -/
theorem c3_str_len_amended (st : StrType) (s s' : State) (o o' : Oracle)
    (fuel : Nat) (v : Value) (hst : st = StrType.str ∨ st = StrType.cstr)
    (h : gen_str st Option.none s o fuel = .ok (v, s', o')) :
    ∃ cs, v = Value.str cs ∧ s.conf.str_min_len ≤ cs.length ∧
      cs.length < s.conf.str_max_len := by
  rcases hst with h1 | h1 <;> subst h1 <;>
  · unfold gen_str at h
    dsimp only at h
    split at h
    · simp at h
    · rename_i len o₁ heq
      obtain ⟨hlo, hhi⟩ := genRange_ok heq
      simp only [Except.ok.injEq, Prod.mk.injEq] at h
      obtain ⟨hv, -, -⟩ := h
      refine ⟨_, hv.symm, ?_, ?_⟩
      · show s.conf.str_min_len ≤ (String.mk _).length
        rw [show (String.mk (sampleChars _ len o₁).1).length =
          (sampleChars _ len o₁).1.length from rfl, sampleChars_len]
        exact hlo
      · show (String.mk _).length < s.conf.str_max_len
        rw [show (String.mk (sampleChars _ len o₁).1).length =
          (sampleChars _ len o₁).1.length from rfl, sampleChars_len]
        exact hhi

/-- C3 (amended) witness: a concrete restricted-text synthesis with
`[2, 4)` yields a string of length 2. -/
theorem c3_str_len_amended_witness :
    ∃ cs, Value.str "AA" = Value.str cs ∧ sPath.conf.str_min_len ≤ cs.length ∧
      cs.length < sPath.conf.str_max_len :=
  c3_str_len_amended StrType.cstr sPath sPath [] [] 5 (Value.str "AA")
    (Or.inr rfl) rfl

/-- C4: the plan produced by `choose_seq` never exceeds `prog_max_len` by
more than one dependency-closure expansion step: its length is bounded by
`prog_max_len` plus the number of operations in the group's table. -/
theorem c4_plan_len_bounded (rs : RTable) (conf : Config) (o o' : Oracle)
    (seq : List Nat) (h : choose_seq rs conf o = .ok (seq, o')) :
    seq.length ≤ conf.prog_max_len + rs.len :=
  (choose_seq_ok h).2.2

/-- C4 witness: a concrete run on a 1×1 `Possible` table with budget 2
produces the plan `[0, 0]` of length 2 ≤ 2 + 1. -/
theorem c4_plan_len_bounded_witness :
    ([0, 0] : List Nat).length ≤ cfgDup.prog_max_len + rsDup.len :=
  c4_plan_len_bounded rsDup cfgDup [0, 1, 0] [] [0, 0] rfl

/-- C7: for every table with `N ≥ 1` operations, a successful `choose_seq`
returns a non-empty plan whose entries all lie in `[0, N)` (first conjunct;
`N ≥ 1` is forced by success, since an empty table aborts); and the same
index may occur more than once (second conjunct: a concrete run whose plan
is `[0, 0]`). -/
theorem c7_seq_contract :
    (∀ rs conf o seq o', choose_seq rs conf o = .ok (seq, o') →
      seq ≠ [] ∧ ∀ x, x ∈ seq → x < rs.len) ∧
    (∃ o seq o', choose_seq rsDup cfgDup o = .ok (seq, o') ∧ ¬ seq.Nodup) := by
  constructor
  · intro rs conf o seq o' h
    obtain ⟨h1, h2, -⟩ := choose_seq_ok h
    exact ⟨h1, h2⟩
  · exact ⟨[0, 1, 0], [0, 0], [], rfl, by decide⟩

/-- C7 witness: the universal conjunct applied to the concrete `[0, 0]`
run. -/
theorem c7_seq_contract_witness :
    ([0, 0] : List Nat) ≠ [] ∧ ∀ x, x ∈ ([0, 0] : List Nat) → x < rsDup.len :=
  c7_seq_contract.1 rsDup cfgDup [0, 1, 0] [0, 0] [] rfl

/-- C9: the resource-availability assertion of `gen_res` (and the `unwrap`
after it) can never fire in a full generation: `record_res` pushes an entry
immediately after inserting the list, so every recorded producer list is
nonempty, and `gen` never returns the `resEmpty` abort. -/
theorem c9_no_resEmpty (fuel : Nat) (t : Target) (rs : List (GroupId × RTable))
    (conf : Config) (o : Oracle) : gen fuel t rs conf o ≠ .error .resEmpty := by
  intro h
  unfold gen at h
  split at h
  · simp at h
  · split at h
    · rename_i heq
      simp only [Except.error.injEq] at h
      subst h
      have := (chooseL_err heq).1
      cases this
    · rename_i gid r o₁ heq1
      split at h
      · rename_i heq2
        simp only [Except.error.injEq] at h
        subst h
        rcases choose_seq_err heq2 with h | h
        · cases h
        · rcases h with h | h | h | h <;> cases h
      · rename_i seq o₂ heq2
        dsimp only at h
        split at h
        · rename_i heq3
          simp only [Except.error.injEq] at h
          subst h
          have h0 := gen_calls_out fuel t (t.groups gid) seq
            (State.new (Prog.new gid) conf) o₂ (ResOK_new _ _) rfl
          exact (errOut_excludes (h0.1 _ heq3)).1 rfl
        · simp at h

/-- C9 witness: a concrete instantiation of the no-`resEmpty` theorem. -/
theorem c9_no_resEmpty_witness : gen 9 tNum rsOne cfgA [] ≠ .error .resEmpty :=
  c9_no_resEmpty 9 tNum rsOne cfgA []

/-- C8: the generator's fatal assertions fire exactly on the listed
violations: (a) `gen` aborts with `emptyRTables` on an empty relation-table
map; (b) value synthesis aborts with `ptrDepth` on a pointer descriptor of
depth ≠ 1; (c) `gen_flag` aborts with `emptyFlags` on an empty flag list;
(d) `gen_union` aborts with `emptyUnion` on an empty field list; and (e) on
a nonempty table map over a well-formed catalog, no run of `gen` ever
returns one of those four errors. -/
theorem c8_assertions :
    (∀ fuel t conf o, gen fuel t [] conf o = .error .emptyRTables) ∧
    (∀ fuel tid t s o dir ptid depth, t.type_of tid = .ptr dir ptid depth →
      depth ≠ 1 → gen_value (fuel + 1) tid t s o = .error .ptrDepth) ∧
    (∀ o fuel, gen_flag [] o fuel = .error .emptyFlags) ∧
    (∀ fuel t s o, gen_union (fuel + 1) [] t s o = .error .emptyUnion) ∧
    (∀ fuel t rs conf o e, rs ≠ [] → WFT t →
      gen fuel t rs conf o = .error e → ¬ listedErr e) := by
  refine ⟨?_, ?_, ?_, ?_, ?_⟩
  · intro fuel t conf o
    rfl
  · intro fuel tid t s o dir ptid depth hty hdep
    simp only [gen_value, hty]
    rw [if_neg hdep]
  · intro o fuel
    rfl
  · intro fuel t s o
    rfl
  · intro fuel t rs conf o e hne hwft h
    unfold gen at h
    split at h
    · rename_i hemp
      exact absurd (List.isEmpty_iff.mp hemp) hne
    · split at h
      · rename_i heq
        simp only [Except.error.injEq] at h
        subst h
        rw [(chooseL_err heq).1]
        simp [listedErr]
      · rename_i gid r o₁ heq1
        split at h
        · rename_i heq2
          simp only [Except.error.injEq] at h
          subst h
          rcases choose_seq_err heq2 with h | h
          · rw [h]; simp [listedErr]
          · exact benignErr_not_listed h
        · rename_i seq o₂ heq2
          dsimp only at h
          split at h
          · rename_i heq3
            simp only [Except.error.injEq] at h
            subst h
            have h0 := gen_calls_out fuel t (t.groups gid) seq
              (State.new (Prog.new gid) conf) o₂ (ResOK_new _ _) rfl
            rcases h0.1 _ heq3 with hb | ⟨hl, hnw⟩
            · exact benignErr_not_listed hb
            · exact absurd hwft hnw
          · simp at h

/-- C8 witness: each conjunct at a concrete input. -/
theorem c8_assertions_witness :
    gen 5 tNum [] cfgA [] = .error .emptyRTables ∧
    gen_value 1 0 tPtr2 sPath [] = .error .ptrDepth ∧
    gen_flag [] [] 3 = .error .emptyFlags ∧
    gen_union 1 [] tNum sPath [] = .error .emptyUnion ∧
    ¬ listedErr .fuelOut := by
  have hwft : WFT tNum := by
    refine ⟨?_, ?_, ?_⟩
    · intro tid dir ptid depth h
      simp [tNum] at h
    · intro tid flags h
      simp [tNum] at h
    · intro tid fields h
      simp [tNum] at h
  refine ⟨c8_assertions.1 5 tNum cfgA [],
    c8_assertions.2.1 0 0 tPtr2 sPath [] PtrDir.In 0 2 rfl (by decide),
    c8_assertions.2.2.1 [] 3,
    c8_assertions.2.2.2.1 0 tNum sPath [],
    c8_assertions.2.2.2.2 0 tNum rsOne cfgA [] .fuelOut (by simp [rsOne]) hwft rfl⟩

/-- C5: with at least one recorded producer for the resource type, `gen_res`
returns a reference to one of the recorded positions (and likewise
`gen_alias` for a resource-classified alias); with no entry in the index,
both recurse into the underlying type — literally equal to the
corresponding `gen_value` call. -/
theorem c5_res_borrow_or_recurse :
    (∀ fuel res_tid tid t (s : State) o l, s.res res_tid = Option.some l →
      l ≠ [] → ∃ idx o', gen_res (fuel + 1) res_tid tid t s o =
        .ok (Value.ref idx, s, o') ∧ idx ∈ l) ∧
    (∀ fuel res_tid tid t (s : State) o, s.res res_tid = Option.none →
      gen_res (fuel + 1) res_tid tid t s o = gen_value fuel tid t s o) ∧
    (∀ fuel tid under_id t (s : State) o l, t.is_res tid = true →
      s.res tid = Option.some l → l ≠ [] →
      ∃ idx o', gen_alias (fuel + 1) tid under_id t s o =
        .ok (Value.ref idx, s, o') ∧ idx ∈ l) ∧
    (∀ fuel tid under_id t (s : State) o, t.is_res tid = true →
      s.res tid = Option.none →
      gen_alias (fuel + 1) tid under_id t s o = gen_value fuel under_id t s o) := by
  refine ⟨?_, ?_, ?_, ?_⟩
  · intro fuel res_tid tid t s o l hres hne
    obtain ⟨a, o', hch, hmem⟩ := chooseL_nonempty o hne
    refine ⟨a, o', ?_, hmem⟩
    simp only [gen_res, hres]
    rw [if_neg (by simp [List.isEmpty_iff, hne]), hch]
  · intro fuel res_tid tid t s o hres
    simp only [gen_res, hres]
  · intro fuel tid under_id t s o l hir hres hne
    obtain ⟨a, o', hch, hmem⟩ := chooseL_nonempty o hne
    refine ⟨a, o', ?_, hmem⟩
    simp only [gen_alias, hir, if_pos, hres, hch]
  · intro fuel tid under_id t s o hir hres
    simp only [gen_alias, hir, if_pos, hres]

/-- C5 witness: on `sRes` (one recorded producer `(0,0)` for type 5) the
borrow branch fires, and for type 6 (no entry) synthesis is literally the
recursion into the underlying type. -/
theorem c5_res_borrow_or_recurse_witness :
    (∃ idx o', gen_res 1 5 2 tNum sRes [] = .ok (Value.ref idx, sRes, o') ∧
      idx ∈ [((0 : Nat), (0 : Nat))]) ∧
    gen_res 1 6 2 tNum sRes [] = gen_value 0 2 tNum sRes [] :=
  ⟨c5_res_borrow_or_recurse.1 0 5 2 tNum sRes [] [(0, 0)] rfl (by simp),
   c5_res_borrow_or_recurse.2.1 0 6 2 tNum sRes [] rfl⟩

/-- C6: every successfully synthesized numeric value satisfies its limit
(member of the enumerated set, or inside the half-open range) and is
normalized to the canonical signed/unsigned 64-bit form matching the source
signedness. -/
theorem c6_num_contract (ni : NumInfo) (o o' : Oracle) (v : Value)
    (h : gen_num ni o = .ok (v, o')) : numOK ni v :=
  gen_num_ok h

/-- C6 witness: `i8` with range `[0, 10)` on the oracle `[3]` yields the
signed value 3. -/
theorem c6_num_contract_witness :
    numOK (.i8 (.range 0 10)) (Value.num (NumValue.signed 3)) :=
  c6_num_contract (.i8 (.range 0 10)) [3] [] (Value.num (NumValue.signed 3)) rfl

/-- C10: `gen_slice_len` is partial exactly as claimed.  Abort cases:
`(-1, h)` with `h ≥ 0` falls into the `(l, h)` arm where `-1 as usize` is
`2^64 - 1 ≥ usize(h)`, so the range draw aborts; `(l, l)` with `l ≥ 0`
aborts on an empty range; `(0, -1)` aborts on the range `[0, 0)`.  Total
cases (the three spec shapes with a nonempty interval): `(-1, -1)`;
`(l, -1)` with `1 ≤ l` in `isize` range; `(l, h)` with `0 ≤ l < h` in
`isize` range. -/
theorem c10_slice_len_dom :
    (∀ h o, 0 ≤ h → gen_slice_len (-1) h o = .error .rangeEmpty) ∧
    (∀ l o, 0 ≤ l → gen_slice_len l l o = .error .rangeEmpty) ∧
    (∀ o, gen_slice_len 0 (-1) o = .error .rangeEmpty) ∧
    (∀ o, ∃ v o', gen_slice_len (-1) (-1) o = .ok (v, o')) ∧
    (∀ l o, 1 ≤ l → l ≤ 2 ^ 63 - 1 → ∃ v o',
      gen_slice_len l (-1) o = .ok (v, o')) ∧
    (∀ l h o, 0 ≤ l → l < h → h ≤ 2 ^ 63 - 1 → ∃ v o',
      gen_slice_len l h o = .ok (v, o')) := by
  refine ⟨?_, ?_, ?_, ?_, ?_, ?_⟩
  · intro h o hh
    unfold gen_slice_len
    rw [if_neg (by omega), if_neg (by omega)]
    unfold genRange
    rw [if_neg ?_]
    have h1 : isizeToUsize (-1) = 2 ^ 64 - 1 := by decide
    have h2 : isizeToUsize h < 2 ^ 64 := by
      unfold isizeToUsize
      have := Int.emod_lt_of_pos h (show (0 : Int) < 2 ^ 64 by decide)
      have h0 : (0 : Int) ≤ h % 2 ^ 64 := Int.emod_nonneg _ (by decide)
      omega
    omega
  · intro l o hl
    unfold gen_slice_len
    rw [if_neg (by omega), if_neg (by omega)]
    unfold genRange
    rw [if_neg (by omega)]
  · intro o
    unfold gen_slice_len
    rw [if_neg (by omega), if_pos rfl]
    unfold genRange
    rw [if_neg (by simp [isizeToUsize])]
  · intro o
    exact ⟨_, _, rfl⟩
  · intro l o h1 h2
    unfold gen_slice_len
    rw [if_neg (by omega), if_pos rfl]
    have hpos : 0 < isizeToUsize l := by
      unfold isizeToUsize
      rw [Int.emod_eq_of_lt (by omega) (by omega)]
      omega
    unfold genRange
    rw [if_pos hpos]
    exact ⟨_, _, rfl⟩
  · intro l h o h1 h2 h3
    unfold gen_slice_len
    rw [if_neg (by omega), if_neg (by omega)]
    have hlt : isizeToUsize l < isizeToUsize h := by
      unfold isizeToUsize
      rw [Int.emod_eq_of_lt (by omega) (by omega),
        Int.emod_eq_of_lt (by omega) (by omega)]
      omega
    unfold genRange
    rw [if_pos hlt]
    exact ⟨_, _, rfl⟩

/-- C10 witness: the `(-1, 0)` abort and the `(-1, -1)` total case at
concrete inputs. -/
theorem c10_slice_len_dom_witness :
    gen_slice_len (-1) 0 [] = .error .rangeEmpty ∧
    ∃ v o', gen_slice_len (-1) (-1) [] = .ok (v, o') :=
  ⟨c10_slice_len_dom.1 0 [] (by decide),
   c10_slice_len_dom.2.2.2.1 []⟩

end Healer
